import Mathlib

/-!
Verification of the per-CPU real-time scheduler in
`src/nautilus/src/nautilus/rt_scheduler.c`.

The C code is shallowly embedded: thread descriptors become a Lean
structure, the three priority-heap queues (runnable, pending, aperiodic)
become lists holding the live array prefix `threads[0 .. size-1]`, the
FIFO ring queues become a structure with `head`/`tail`/`size` and a slot
function, and every mutating C function becomes a Lean function that
returns the updated state.  All `uint64_t` arithmetic that can wrap is
taken modulo `2^64`; `cur_time()` is modelled by a parameter `now` that
is constant during a single dispatch.
-/

/-- Thread classes (`#define APERIODIC 0`, `SPORADIC 1`, `PERIODIC 2`). -/
inductive RTType where
  | aperiodic
  | sporadic
  | periodic
deriving DecidableEq

/-- Lifecycle statuses (`ARRIVED` .. `SLEEPING`). -/
inductive RTStatus where
  | arrived
  | admitted
  | waiting
  | running
  | tobeRemoved
  | removed
  | sleeping
deriving DecidableEq

/-- Queue type tags (`RUNNABLE_QUEUE` .. `EXITED_QUEUE`). -/
inductive QueueType where
  | runnableQueue
  | pendingQueue
  | aperiodicQueue
  | arrivalQueue
  | waitingQueue
  | sleepingQueue
  | exitedQueue
deriving DecidableEq

/-- Constraint fields.  In the C code `rt_constraints` is a union of
`periodic {period, slice}`, `sporadic {work}` and `aperiodic {priority}`;
we model it as a record carrying all four fields, and each code path
reads or writes exactly the fields its branch touches in the source. -/
structure RTConstraints where
  period : Nat
  slice : Nat
  work : Nat
  priority : Nat
deriving DecidableEq

/-- Thread descriptor (`rt_thread`).  `tid` stands for the descriptor's
identity (the pointer value in C); all other fields are the struct
fields the scheduler reads or writes. -/
structure RTThread where
  tid : Nat
  ttype : RTType
  status : RTStatus
  qType : QueueType
  constraints : RTConstraints
  startTime : Nat
  runTime : Nat
  deadline : Nat
  exitTime : Nat
deriving DecidableEq

/-- Value of `2^64`, the modulus of `uint64_t` arithmetic. -/
def U64 : Nat := 18446744073709551616

/-- Wrapping `uint64_t` subtraction `a - b` (operands below `2^64`). -/
def sub64 (a b : Nat) : Nat := (a + U64 - b) % U64

/-- Compile-time bound `MAX_QUEUE`. -/
def MAX_QUEUE : Nat := 256

/-- Compile-time constant `QUANTUM`. -/
def QUANTUM : Nat := 10000000

/-- Utilization bound `PERIODIC_UTIL`. -/
def PERIODIC_UTIL : Nat := 65000

/-- Utilization bound `SPORADIC_UTIL`. -/
def SPORADIC_UTIL : Nat := 18000

/-- Junk descriptor used only as the default of `List.getD` at indices
that are always in bounds along reachable executions. -/
def dfltThread : RTThread :=
  { tid := 0, ttype := .aperiodic, status := .arrived, qType := .aperiodicQueue,
    constraints := { period := 0, slice := 0, work := 0, priority := 0 },
    startTime := 0, runTime := 0, deadline := 0, exitTime := 0 }

/-- Heap parent index (`#define parent(i) ((i) ? (((i) - 1) >> 1) : 0)`). -/
def parentIdx (i : Nat) : Nat := if i = 0 then 0 else (i - 1) / 2

/-- Ordering key of the runnable and pending heaps (`deadline`). -/
def deadlineKey (t : RTThread) : Nat := t.deadline

/-- Ordering key of the aperiodic heap (`constraints->aperiodic.priority`). -/
def priorityKey (t : RTThread) : Nat := t.constraints.priority

/-- Key of index `i` in heap array `l` (reads beyond the live prefix never
happen where this is used with default `dfltThread`). -/
def kAt (key : RTThread → Nat) (l : List RTThread) (i : Nat) : Nat :=
  key (l.getD i dfltThread)

/-- Sift-up loop of the heap branches of `enqueue_thread`
(rt_scheduler.c lines 277-285 and the two identical copies): the slot
`pos` holds the new element, and while the parent's key is larger the
parent is copied down and `pos` moves up; finally the element is stored
at `pos`.  The walk moves strictly towards the root, so the structural
fuel `pos + 1` supplied by the `siftUp` wrapper never runs out; the
fuel-exhaustion fallback performs the loop-exit store. -/
def siftUpAux (key : RTThread → Nat) (x : RTThread) :
    Nat → List RTThread → Nat → List RTThread
  | 0, l, pos => l.set pos x
  | fuel + 1, l, pos =>
    if key (l.getD (parentIdx pos) x) > key x ∧ pos ≠ parentIdx pos then
      siftUpAux key x fuel (l.set pos (l.getD (parentIdx pos) x)) (parentIdx pos)
    else
      l.set pos x

/-- Sift-up entry point. -/
def siftUp (key : RTThread → Nat) (x : RTThread) (l : List RTThread) (pos : Nat) :
    List RTThread :=
  siftUpAux key x (pos + 1) l pos

/-- Swap-form of the sift-up loop: the same walk towards the root, but at
each step the element at `pos` and its parent are exchanged.  `siftUp`
is proved extensionally equal to it (`siftUp_eq_siftUpM`), and the heap
properties are established for this form. -/
def siftUpMAux (key : RTThread → Nat) : Nat → List RTThread → Nat → List RTThread
  | 0, l, _ => l
  | fuel + 1, l, pos =>
    if key (l.getD (parentIdx pos) dfltThread) > key (l.getD pos dfltThread) ∧
        pos ≠ parentIdx pos then
      siftUpMAux key fuel
        ((l.set pos (l.getD (parentIdx pos) dfltThread)).set (parentIdx pos)
          (l.getD pos dfltThread))
        (parentIdx pos)
    else
      l

/-- Swap-form sift-up entry point. -/
def siftUpM (key : RTThread → Nat) (l : List RTThread) (pos : Nat) : List RTThread :=
  siftUpMAux key (pos + 1) l pos

/-- Heap insertion: `uint64_t pos = queue->size++; queue->threads[pos] =
thread;` followed by the sift-up loop.  The appended element already
carries the `q_type` tag the branch assigns, since the pre-assignment
value never survives the loop. -/
def heapEnq (key : RTThread → Nat) (l : List RTThread) (x : RTThread) :
    List RTThread :=
  siftUp key x (l ++ [x]) l.length

/-- Child selection of the sift-down loop: `child = left_child(now); if
(child < size && threads[right_child(now)]->key < threads[left_child(now)]
->key) child = right_child(now);`.  The guard `child < size` is the loop
guard `left_child(now) < size` again, so a read at `right_child(now) ==
size` is possible; that slot is the stale copy of `last`, modelled by the
`getD` default. -/
def siftChild (key : RTThread → Nat) (last : RTThread) (l : List RTThread)
    (now : Nat) : Nat :=
  if 2 * now + 1 < l.length ∧
      key (l.getD (2 * now + 2) last) < key (l.getD (2 * now + 1) last) then
    2 * now + 2
  else
    2 * now + 1

/-- Index bounds of `siftChild`. -/
theorem siftChild_gt (key : RTThread → Nat) (last : RTThread) (l : List RTThread)
    (now : Nat) : now < siftChild key last l now ∧
      siftChild key last l now ≤ 2 * now + 2 := by
  unfold siftChild
  split
  all_goals omega

/-- Sift-down loop shared by `dequeue_thread`'s heap branches
(rt_scheduler.c lines 659-675 and copies) and by `remove_thread`.
`l` is the live prefix after `--queue->size`; a read at index
`l.length` returns the stale slot, which still holds `last` — modelled
exactly by `List.getD _ last`.  The hole index strictly increases and
the loop stops once it has no live left child, so the structural fuel
`l.length + 1` supplied by the `siftDown` wrapper never runs out; the
fuel-exhaustion fallback performs the loop-exit store. -/
def siftDownAux (key : RTThread → Nat) (last : RTThread) :
    Nat → List RTThread → Nat → List RTThread
  | 0, l, now => l.set now last
  | fuel + 1, l, now =>
    if 2 * now + 1 < l.length then
      if key last > key (l.getD (siftChild key last l now) last) then
        siftDownAux key last fuel (l.set now (l.getD (siftChild key last l now) last))
          (siftChild key last l now)
      else
        l.set now last
    else
      l.set now last

/-- Sift-down entry point. -/
def siftDown (key : RTThread → Nat) (last : RTThread) (l : List RTThread)
    (now : Nat) : List RTThread :=
  siftDownAux key last (l.length + 1) l now

/-- Length is preserved by the sift-down loop. -/
theorem siftDownAux_length (key : RTThread → Nat) (last : RTThread) :
    ∀ (n : Nat) (l : List RTThread) (now : Nat),
      (siftDownAux key last n l now).length = l.length := by
  intro n
  induction n with
  | zero =>
    intro l now
    exact List.length_set ..
  | succ n ih =>
    intro l now
    unfold siftDownAux
    split
    · split
      · rw [ih]
        exact List.length_set ..
      · exact List.length_set ..
    · exact List.length_set ..

/-- Length is preserved by the sift-down loop (entry-point form). -/
theorem siftDown_len (key : RTThread → Nat) (last : RTThread) (l : List RTThread)
    (now : Nat) : (siftDown key last l now).length = l.length :=
  siftDownAux_length key last (l.length + 1) l now

/-- Heap removal step of `dequeue_thread` with the ToBeRemoved skip
(rt_scheduler.c lines 645-682 and the two identical copies): remove the
root, move the last element to the root and sift down; if the removed
descriptor's status is `TOBE_REMOVED`, the statement `min->status ==
REMOVED;` in the source is a comparison whose value is discarded — no
field is written — and the function dequeues again.  The fuel argument
bounds the skip chain; each step removes one element, so `l.length`
suffices. -/
def heapDequeueAux (key : RTThread → Nat) : Nat → List RTThread →
    Option RTThread × List RTThread
  | 0, l => (none, l)
  | fuel + 1, l =>
    match l with
    | [] => (none, [])
    | x :: xs =>
      let l' := siftDown key ((x :: xs).getLastD dfltThread) (x :: xs).dropLast 0
      if x.status = RTStatus.tobeRemoved then
        heapDequeueAux key fuel l'
      else
        (some x, l')

/-- Heap dequeue (`dequeue_thread` on a heap queue). -/
def heapDequeue (key : RTThread → Nat) (l : List RTThread) :
    Option RTThread × List RTThread :=
  heapDequeueAux key l.length l

/-- Tag written on the descriptor by the heap branches of
`enqueue_thread` (`thread->q_type = ...`). -/
def heapTag (qt : QueueType) (t : RTThread) : RTThread := { t with qType := qt }

/-- Heap dispatch of `enqueue_thread` (rt_scheduler.c lines 267-319):
the three heap branches, each guarded by `size == MAX_QUEUE` (full:
report and return with no change), keyed by deadline for runnable and
pending and by aperiodic priority for aperiodic.  The four ring-buffer
branches act on a different carrier and are embedded as `ringEnqueue`. -/
def enqueue_thread (qt : QueueType) (l : List RTThread) (t : RTThread) :
    List RTThread :=
  match qt with
  | .runnableQueue =>
    if l.length = MAX_QUEUE then l
    else heapEnq deadlineKey l (heapTag .runnableQueue t)
  | .pendingQueue =>
    if l.length = MAX_QUEUE then l
    else heapEnq deadlineKey l (heapTag .pendingQueue t)
  | .aperiodicQueue =>
    if l.length = MAX_QUEUE then l
    else heapEnq priorityKey l (heapTag .aperiodicQueue t)
  | _ => l

/-- Heap dispatch of `dequeue_thread` (rt_scheduler.c lines 643-756):
runnable and pending dequeue by deadline, aperiodic by priority.  The
ring branch is embedded as `ringDequeue` (its dispatch condition in the
source, `queue->type = WAITING_QUEUE`, is an assignment inside `||`,
which is not even a well-formed C expression; the intended `==` is
used). -/
def dequeue_thread (qt : QueueType) (l : List RTThread) :
    Option RTThread × List RTThread :=
  match qt with
  | .runnableQueue => heapDequeue deadlineKey l
  | .pendingQueue => heapDequeue deadlineKey l
  | .aperiodicQueue => heapDequeue priorityKey l
  | _ => (none, l)

/-- FIFO ring queue (`rt_queue` used with the arrival / waiting /
sleeping / exited types): capacity `MAX_QUEUE`, entries occupy
`[head, tail)` modulo `MAX_QUEUE`; `slots` is the backing array of
descriptor pointers. -/
structure RingQueue where
  rtype : QueueType
  size : Nat
  head : Nat
  tail : Nat
  slots : Nat → RTThread

/-- Empty ring queue of a given type, as produced by
`rt_scheduler_init` (`size = head = tail = 0`, zeroed array). -/
def emptyRing (qt : QueueType) : RingQueue :=
  { rtype := qt, size := 0, head := 0, tail := 0, slots := fun _ => dfltThread }

/-- Ring branches of `enqueue_thread` (rt_scheduler.c lines 320-384):
on a full queue report and drop; otherwise `queue->size++; pos =
queue->tail++` with wrap at `MAX_QUEUE`, tag the descriptor's `q_type`
(and, per branch, its status: ARRIVED for arrival, WAITING for waiting,
SLEEPING for sleeping; the exited branch sets no status) and store it at
`pos`. -/
def ringEnqueue (q : RingQueue) (t : RTThread) : RingQueue :=
  match q.rtype with
  | .arrivalQueue =>
    if q.size = MAX_QUEUE then q
    else
      { q with size := q.size + 1,
               tail := if q.tail + 1 = MAX_QUEUE then 0 else q.tail + 1,
               slots := fun i => if i = q.tail then
                   { t with qType := .arrivalQueue, status := .arrived }
                 else q.slots i }
  | .waitingQueue =>
    if q.size = MAX_QUEUE then q
    else
      { q with size := q.size + 1,
               tail := if q.tail + 1 = MAX_QUEUE then 0 else q.tail + 1,
               slots := fun i => if i = q.tail then
                   { t with qType := .waitingQueue, status := .waiting }
                 else q.slots i }
  | .sleepingQueue =>
    if q.size = MAX_QUEUE then q
    else
      { q with size := q.size + 1,
               tail := if q.tail + 1 = MAX_QUEUE then 0 else q.tail + 1,
               slots := fun i => if i = q.tail then
                   { t with qType := .sleepingQueue, status := .sleeping }
                 else q.slots i }
  | .exitedQueue =>
    if q.size = MAX_QUEUE then q
    else
      { q with size := q.size + 1,
               tail := if q.tail + 1 = MAX_QUEUE then 0 else q.tail + 1,
               slots := fun i => if i = q.tail then
                   { t with qType := .exitedQueue }
                 else q.slots i }
  | _ => q

/-- Ring branch of `dequeue_thread` (rt_scheduler.c lines 757-776):
empty iff `head == tail`; otherwise `pos = queue->head++` with wrap,
`queue->size--`, and if the descriptor's status is `TOBE_REMOVED` the
source's `t->status == REMOVED;` is a discarded comparison (no write)
and the dequeue recurses.  The fuel bounds the skip chain; each step
consumes one live entry, so `size + 1` suffices on consistent states. -/
def ringDequeueAux : Nat → RingQueue → Option RTThread × RingQueue
  | 0, q => (none, q)
  | fuel + 1, q =>
    if q.head = q.tail then (none, q)
    else
      let q' := { q with head := if q.head + 1 = MAX_QUEUE then 0 else q.head + 1,
                         size := sub64 q.size 1 }
      if (q.slots q.head).status = RTStatus.tobeRemoved then
        ringDequeueAux fuel q'
      else
        (some (q'.slots q.head), q')

/-- Ring dequeue entry point. -/
def ringDequeue (q : RingQueue) : Option RTThread × RingQueue :=
  ringDequeueAux (q.size + 1) q

/-- Field updates performed on the enqueued descriptor by the ring
branch of `enqueue_thread` for each ring type. -/
def ringTag (qt : QueueType) (t : RTThread) : RTThread :=
  match qt with
  | .arrivalQueue => { t with qType := .arrivalQueue, status := .arrived }
  | .waitingQueue => { t with qType := .waitingQueue, status := .waiting }
  | .sleepingQueue => { t with qType := .sleepingQueue, status := .sleeping }
  | .exitedQueue => { t with qType := .exitedQueue }
  | _ => t

/-- RUNNABLE_QUEUE branch of `remove_thread` (rt_scheduler.c lines
394-440), which the caller reaches when the argument's `q_type` names
the runnable queue.  On an empty queue it reports and returns NULL with
no change.  Otherwise the match loop `if (thread = queue->threads[i])`
is an assignment, not a comparison: its value is the (non-null) pointer
`queue->threads[0]`, so `target_index` is always `0` and the local
`thread` is rebound to the root; the code then removes index 0 by the
usual last-element sift-down and returns `thread`, i.e. the old root. -/
def remove_thread (runnable : List RTThread) (t : RTThread) :
    Option RTThread × List RTThread :=
  match runnable with
  | [] => (none, runnable)
  | x :: xs =>
    (some x, siftDown deadlineKey ((x :: xs).getLastD dfltThread)
      ((x :: xs).dropLast) 0)

/-- Deadline check (`check_deadlines`, rt_scheduler.c lines 1119-1129):
returns 1 — reporting a missed deadline — iff `exit_time > deadline`. -/
def check_deadlines (t : RTThread) : Bool := t.deadline < t.exitTime

/-- Periodic re-release (`update_periodic`, rt_scheduler.c lines
1131-1138): for a periodic thread set `deadline = cur_time() + period`
and `run_time = 0`; other classes are untouched. -/
def update_periodic (t : RTThread) (now : Nat) : RTThread :=
  if t.ttype = RTType.periodic then
    { t with deadline := (now + t.constraints.period) % U64, runTime := 0 }
  else t

/-- Per-CPU scheduler state (`rt_scheduler`): the three heap queues the
dispatcher touches, the opaque `scheduler->run_time` field read at the
top of `rt_need_resched`, and the `tsc_info` bookkeeping fields written
by `set_timer` and `rt_need_resched`.  The four ring queues are carried
separately as `RingQueue` values by the operations that use them. -/
structure Sched where
  runnable : List RTThread
  pending : List RTThread
  aperiodicQ : List RTThread
  schedRunTime : Nat
  tscStartTime : Nat
  tscSetTime : Nat
  tscEndTime : Nat
deriving DecidableEq

/-- Interval written to the one-shot timer by `set_timer`
(rt_scheduler.c lines 937-977), as the argument of
`apic_oneshot_write`: with a non-empty pending queue the minimum of the
gap `pending->threads[0]->deadline - end_time` and the remaining budget
(`slice - run_time` plus slack for periodic, `work - run_time` plus
slack for sporadic, `QUANTUM` for aperiodic); with an empty pending
queue the budget term alone. -/
def set_timer_interval (pendingQ : List RTThread) (t : RTThread)
    (end_time slack : Nat) : Nat :=
  match pendingQ with
  | p :: _ =>
    match t.ttype with
    | .periodic =>
      min (sub64 p.deadline end_time) ((sub64 t.constraints.slice t.runTime + slack) % U64)
    | .sporadic =>
      min (sub64 p.deadline end_time) ((sub64 t.constraints.work t.runTime + slack) % U64)
    | .aperiodic => min (sub64 p.deadline end_time) QUANTUM
  | [] =>
    match t.ttype with
    | .periodic => (sub64 t.constraints.slice t.runTime + slack) % U64
    | .sporadic => (sub64 t.constraints.work t.runTime + slack) % U64
    | .aperiodic => QUANTUM

/-- Value stored in `scheduler->tsc->set_time` by `set_timer`; it equals
the written interval except in the periodic/pending-non-empty case,
where the source omits `+ slack` (line 948). -/
def set_timer_record (pendingQ : List RTThread) (t : RTThread)
    (end_time slack : Nat) : Nat :=
  match pendingQ with
  | p :: _ =>
    match t.ttype with
    | .periodic =>
      min (sub64 p.deadline end_time) (sub64 t.constraints.slice t.runTime)
    | .sporadic =>
      min (sub64 p.deadline end_time) ((sub64 t.constraints.work t.runTime + slack) % U64)
    | .aperiodic => min (sub64 p.deadline end_time) QUANTUM
  | [] =>
    match t.ttype with
    | .periodic => (sub64 t.constraints.slice t.runTime + slack) % U64
    | .sporadic => (sub64 t.constraints.work t.runTime + slack) % U64
    | .aperiodic => QUANTUM

/-- State effect of `set_timer`: `tsc->start_time = cur_time()`, the
recorded `set_time`, and `tsc->end_time = end_time` (line 976).  The
queues are only read. -/
def set_timer_st (s : Sched) (t : RTThread) (end_time slack now : Nat) : Sched :=
  { s with tscStartTime := now,
           tscSetTime := set_timer_record s.pending t end_time slack,
           tscEndTime := end_time }

/-- Release drain at the top of `rt_need_resched` (rt_scheduler.c lines
995-1012): while pending is non-empty and its root's deadline is
strictly below `end_time`, dequeue it (a NULL result — possible only
through ToBeRemoved skips — just continues the loop), apply
`update_periodic`, and enqueue onto runnable.  The fuel bounds the
iteration count; each pass removes at least one pending element, so the
initial pending size suffices. -/
def drainLoopAux : Nat → Sched → Nat → Nat → Sched
  | 0, s, _, _ => s
  | fuel + 1, s, end_time, now =>
    match s.pending with
    | [] => s
    | t :: _ =>
      if t.deadline < end_time then
        match dequeue_thread .pendingQueue s.pending with
        | (none, p') => drainLoopAux fuel { s with pending := p' } end_time now
        | (some th, p') =>
          drainLoopAux fuel
            { s with pending := p',
                     runnable := enqueue_thread .runnableQueue s.runnable
                       (update_periodic th now) } end_time now
      else s

/-- Release drain entry point. -/
def drainLoop (s : Sched) (end_time now : Nat) : Sched :=
  drainLoopAux s.pending.length s end_time now

/-- Shared selection tail of `rt_need_resched`: `if (runnable->size >
0) { rt_n = dequeue(runnable); if (rt_n) { set_timer; return rt_n; } }
rt_n = dequeue(aperiodic); if (!rt_n) panic; set_timer; return rt_n;`.
A `none` result models the panic on an empty aperiodic queue. -/
def pickNext (s : Sched) (now end_time : Nat) : Option (RTThread × Sched) :=
  match s.runnable with
  | _ :: _ =>
    match dequeue_thread .runnableQueue s.runnable with
    | (some n, r') => some (n, set_timer_st { s with runnable := r' } n end_time 0 now)
    | (none, r') =>
      match dequeue_thread .aperiodicQueue s.aperiodicQ with
      | (none, _) => none
      | (some n, a') =>
        some (n, set_timer_st { s with runnable := r', aperiodicQ := a' } n end_time 0 now)
  | [] =>
    match dequeue_thread .aperiodicQueue s.aperiodicQ with
    | (none, _) => none
    | (some n, a') => some (n, set_timer_st { s with aperiodicQ := a' } n end_time 0 now)

/-- Preemption check shared by the sporadic and periodic branches with
remaining budget (rt_scheduler.c lines 1055-1069 and 1095-1109): if
runnable is non-empty and `rt_c->deadline > runnable->threads[0]->
deadline`, dequeue the runnable root, enqueue the current thread back
onto runnable and return the root; a NULL dequeue result falls through,
like an empty or later-deadline runnable, to `set_timer(rt_c); return
rt_c;`. -/
def preemptCheck (s : Sched) (cur : RTThread) (now end_time : Nat) :
    RTThread × Sched :=
  match s.runnable with
  | t0 :: _ =>
    if t0.deadline < cur.deadline then
      match dequeue_thread .runnableQueue s.runnable with
      | (some n, r') =>
        (n, set_timer_st
          { s with runnable := enqueue_thread .runnableQueue r' cur } n end_time 0 now)
      | (none, r') => (cur, set_timer_st { s with runnable := r' } cur end_time 0 now)
    else (cur, set_timer_st s cur end_time 0 now)
  | [] => (cur, set_timer_st s cur end_time 0 now)

/-- Re-tagging of an aperiodic current thread at the top of the
APERIODIC case (`rt_c->constraints->aperiodic.priority = rt_c->
run_time;`). -/
def retagAperiodic (cur : RTThread) : RTThread :=
  { cur with constraints := { cur.constraints with priority := cur.runTime } }

/-- Selection switch of `rt_need_resched` (rt_scheduler.c lines
1014-1114), dispatched on the current thread's class over the
post-drain state:
aperiodic — re-tag `constraints->aperiodic.priority = run_time`,
enqueue onto aperiodic, pick from runnable else aperiodic;
sporadic — if `run_time >= work`, call `check_deadlines` (diagnostic
only, result discarded) and pick from runnable else aperiodic,
otherwise the preemption check;
periodic — if `run_time >= slice`, then if `check_deadlines` returns 1
(deadline missed) apply `update_periodic` and enqueue onto runnable,
else enqueue onto pending, then pick from runnable else aperiodic;
otherwise the preemption check. -/
def selectNext (s : Sched) (cur : RTThread) (now end_time : Nat) :
    Option (RTThread × Sched) :=
  match cur.ttype with
  | .aperiodic =>
    pickNext
      { s with aperiodicQ :=
          enqueue_thread .aperiodicQueue s.aperiodicQ (retagAperiodic cur) }
      now end_time
  | .sporadic =>
    if cur.constraints.work ≤ cur.runTime then
      pickNext s now end_time
    else
      some (preemptCheck s cur now end_time)
  | .periodic =>
    if cur.constraints.slice ≤ cur.runTime then
      if check_deadlines cur then
        pickNext
          { s with runnable := enqueue_thread .runnableQueue s.runnable
                     (update_periodic cur now) } now end_time
      else
        pickNext
          { s with pending := enqueue_thread .pendingQueue s.pending cur } now end_time
    else
      some (preemptCheck s cur now end_time)

/-- Reschedule entry point `rt_need_resched` (rt_scheduler.c lines
980-1115): `end_time = scheduler->run_time + cur_time()`, `slack = 0`,
`tsc->end_time = cur_time()`, then the release drain followed by the
selection switch.  The current thread's billing fields are not touched
anywhere in the function. -/
def rtNeedResched (s : Sched) (cur : RTThread) (now : Nat) :
    Option (RTThread × Sched) :=
  selectNext (drainLoop { s with tscEndTime := now } ((s.schedRunTime + now) % U64) now)
    cur now ((s.schedRunTime + now) % U64)

/-- Per-thread term of the periodic utilization sum:
`(slice * 100000) / period` in `uint64_t`. -/
def perTerm (t : RTThread) : Nat :=
  ((t.constraints.slice * 100000) % U64) / t.constraints.period

/-- Periodic utilization (`get_per_util`, rt_scheduler.c lines
1229-1251): fold `util += (slice * 100000) / period` over the periodic
members of runnable then pending, in `uint64_t`. -/
def get_per_util (runnable pending : List RTThread) : Nat :=
  pending.foldl
    (fun util t => if t.ttype = RTType.periodic then (util + perTerm t) % U64 else util)
    (runnable.foldl
      (fun util t => if t.ttype = RTType.periodic then (util + perTerm t) % U64 else util)
      0)

/-- Sporadic utilization (`get_spor_util`, rt_scheduler.c lines
1253-1267): fold `util += (work * 100000) / (deadline - cur_time())`
over the sporadic members of runnable. -/
def get_spor_util (runnable : List RTThread) (now : Nat) : Nat :=
  runnable.foldl
    (fun util t => if t.ttype = RTType.sporadic then
        (util + ((t.constraints.work * 100000) % U64) / sub64 t.deadline now) % U64
      else util)
    0

/-- Admission control (`rt_admit`, rt_scheduler.c lines 1146-1168): a
periodic candidate is denied iff `get_per_util(runnable, pending) +
(slice * 100000) / period` exceeds `PERIODIC_UTIL`; a sporadic
candidate is denied iff `get_spor_util(runnable)` exceeds
`SPORADIC_UTIL`; everything else is accepted (return 1, here `true`). -/
def rt_admission (runnable pending : List RTThread) (t : RTThread) (now : Nat) :
    Bool :=
  if t.ttype = RTType.periodic then
    if (get_per_util runnable pending + perTerm t) % U64 > PERIODIC_UTIL then false
    else true
  else if t.ttype = RTType.sporadic then
    if get_spor_util runnable now > SPORADIC_UTIL then false
    else true
  else true

/-- Statement-by-statement state-passing form of `rt_admit`: every C
statement of the function either reads the scheduler state or returns,
so each branch returns the verdict together with the state and the
candidate it was given. -/
def rt_admission_st (s : Sched) (t : RTThread) (now : Nat) :
    Bool × Sched × RTThread :=
  if t.ttype = RTType.periodic then
    if (get_per_util s.runnable s.pending + perTerm t) % U64 > PERIODIC_UTIL then
      (false, s, t)
    else (true, s, t)
  else if t.ttype = RTType.sporadic then
    if get_spor_util s.runnable now > SPORADIC_UTIL then (false, s, t)
    else (true, s, t)
  else (true, s, t)


/-- Min-heap property of a heap array under a key: every element is at
least its parent (spec invariant I2 / P2). -/
def IsHeap (key : RTThread → Nat) (l : List RTThread) : Prop :=
  ∀ i, i < l.length → kAt key l (parentIdx i) ≤ kAt key l i

instance (key : RTThread → Nat) (l : List RTThread) : Decidable (IsHeap key l) :=
  Nat.decidableBallLT l.length (fun i _ => kAt key l (parentIdx i) ≤ kAt key l i)

/-- Invariant of the swap-form sift-up walk with the moving element at
`pos`: the heap property holds at every pair whose child is not `pos`,
and the grandparent of `pos` bounds the children of `pos`. -/
def InvUp (key : RTThread → Nat) (l : List RTThread) (pos : Nat) : Prop :=
  (∀ c, c < l.length → c ≠ pos → kAt key l (parentIdx c) ≤ kAt key l c) ∧
  (∀ c, c < l.length → c ≠ pos → parentIdx c = pos →
    kAt key l (parentIdx pos) ≤ kAt key l c)

/-- Invariant of the sift-down walk with the hole at `now` and the moving
element `last`: the heap property holds at every pair not involving
`now`, the parent of `now` bounds the children of `now` (unless `now` is
the root), and the parent of `now` bounds `last`. -/
def InvDown (key : RTThread → Nat) (last : RTThread) (l : List RTThread)
    (now : Nat) : Prop :=
  (∀ c, c < l.length → c ≠ now → parentIdx c ≠ now →
    kAt key l (parentIdx c) ≤ kAt key l c) ∧
  (∀ c, c < l.length → c ≠ now → parentIdx c = now →
    now = 0 ∨ kAt key l (parentIdx now) ≤ kAt key l c) ∧
  (now ≠ 0 → kAt key l (parentIdx now) ≤ key last)

/-- Ordering key used by each heap queue type (deadline for runnable and
pending, aperiodic priority for aperiodic; unused tags map to a dummy). -/
def heapKeyOf (qt : QueueType) : RTThread → Nat :=
  match qt with
  | .runnableQueue => deadlineKey
  | .pendingQueue => deadlineKey
  | .aperiodicQueue => priorityKey
  | _ => fun _ => 0

/-- Draining a heap queue by repeated `dequeue_thread` until it reports
empty, collecting the returned descriptors.  The fuel bounds the number
of dequeues; every successful dequeue removes at least one element, so
the queue's size suffices. -/
def drainQueueAux (qt : QueueType) : Nat → List RTThread → List RTThread
  | 0, _ => []
  | fuel + 1, l =>
    match dequeue_thread qt l with
    | (none, _) => []
    | (some t, l') => t :: drainQueueAux qt fuel l'

/-- Drain entry point. -/
def drainQueue (qt : QueueType) (l : List RTThread) : List RTThread :=
  drainQueueAux qt l.length l

/-- Mathematical (non-wrapping) sum of the periodic utilization terms of
a list, used to state what `get_per_util` folds up. -/
def sumPer (l : List RTThread) : Nat :=
  (l.map fun t => if t.ttype = RTType.periodic then perTerm t else 0).sum

/-- Reading a freshly written slot. -/
theorem getD_set_self {α : Type} (l : List α) (i : Nat) (a d : α)
    (h : i < l.length) : (l.set i a).getD i d = a := by
  rw [List.getD_eq_getElem?_getD, List.getElem?_set_self h]
  rfl

/-- Reading an untouched slot. -/
theorem getD_set_ne {α : Type} (l : List α) (i j : Nat) (a d : α)
    (h : i ≠ j) : (l.set i a).getD j d = l.getD j d := by
  rw [List.getD_eq_getElem?_getD, List.getElem?_set_ne h,
    List.getD_eq_getElem?_getD]

/-- In-bounds reads do not depend on the default. -/
theorem getD_irrel {α : Type} (l : List α) (i : Nat) (d d' : α)
    (h : i < l.length) : l.getD i d = l.getD i d' := by
  rw [List.getD_eq_getElem l d h, List.getD_eq_getElem l d' h]

/-- Writing back the value already present is the identity. -/
theorem set_getD_self {α : Type} : ∀ (l : List α) (i : Nat) (d : α),
    i < l.length → l.set i (l.getD i d) = l := by
  intro l
  induction l with
  | nil => intro i d h; simp at h
  | cons x xs ih =>
    intro i d h
    cases i with
    | zero => simp
    | succ k =>
      simp only [List.getD_cons_succ, List.set_cons_succ, List.cons.injEq, true_and]
      exact ih k d (by simpa using h)

/-- Membership through in-bounds reads. -/
theorem mem_iff_getD {α : Type} (l : List α) (a d : α) :
    a ∈ l ↔ ∃ i, i < l.length ∧ l.getD i d = a := by
  rw [List.mem_iff_getElem]
  constructor
  · rintro ⟨n, hn, rfl⟩
    exact ⟨n, hn, List.getD_eq_getElem l d hn⟩
  · rintro ⟨i, hi, rfl⟩
    exact ⟨i, hi, (List.getD_eq_getElem l d hi).symm⟩

/-- Parent of the root. -/
theorem parentIdx_zero : parentIdx 0 = 0 := rfl

/-- Parent index is strictly below any non-root index. -/
theorem parentIdx_lt {i : Nat} (h : 0 < i) : parentIdx i < i := by
  unfold parentIdx
  split
  · omega
  · omega

/-- Parent index never exceeds the index. -/
theorem parentIdx_le (i : Nat) : parentIdx i ≤ i := by
  unfold parentIdx
  split
  · omega
  · omega

/-- Characterization of the children of `p`. -/
theorem parentIdx_eq_iff {i p : Nat} (h : i ≠ 0) :
    parentIdx i = p ↔ i = 2 * p + 1 ∨ i = 2 * p + 2 := by
  unfold parentIdx
  rw [if_neg h]
  omega

/-- Parent of the left child. -/
theorem parentIdx_left (p : Nat) : parentIdx (2 * p + 1) = p := by
  unfold parentIdx
  rw [if_neg (by omega)]
  omega

/-- Parent of the right child. -/
theorem parentIdx_right (p : Nat) : parentIdx (2 * p + 2) = p := by
  unfold parentIdx
  rw [if_neg (by omega)]
  omega

/-- An index is its own parent exactly at the root. -/
theorem parentIdx_self_iff (i : Nat) : parentIdx i = i ↔ i = 0 := by
  unfold parentIdx
  split
  · omega
  · omega

/-- Swapping a read value into the head. -/
theorem perm_headSwap {α : Type} :
    ∀ (xs : List α) (k : Nat) (b d : α), k < xs.length →
      List.Perm (xs.getD k d :: xs.set k b) (b :: xs) := by
  intro xs
  induction xs with
  | nil => intro k b d h; simp at h
  | cons x xs ih =>
    intro k b d h
    cases k with
    | zero =>
      simpa using List.Perm.swap b x xs
    | succ k =>
      have h' : k < xs.length := by simpa using h
      simp only [List.getD_cons_succ, List.set_cons_succ]
      refine (List.Perm.swap x (xs.getD k d) (xs.set k b)).trans ?_
      exact ((ih k b d h').cons x).trans (List.Perm.swap b x xs)

/-- Exchanging the head with a written slot. -/
theorem perm_crossSwap {α : Type} :
    ∀ (xs : List α) (k : Nat) (x b : α), k < xs.length →
      List.Perm (b :: xs.set k x) (x :: xs.set k b) := by
  intro xs
  induction xs with
  | nil => intro k x b h; simp at h
  | cons y ys ih =>
    intro k x b h
    cases k with
    | zero =>
      simpa using List.Perm.swap x b ys
    | succ k =>
      have h' : k < ys.length := by simpa using h
      simp only [List.set_cons_succ]
      refine (List.Perm.swap y b (ys.set k x)).trans ?_
      exact ((ih k x b h').cons y).trans (List.Perm.swap x y (ys.set k b))

/-- Moving a slot's value to another slot and overwriting the source is,
up to permutation, just overwriting the target. -/
theorem perm_setSwap {α : Type} :
    ∀ (l : List α) (i j : Nat) (b d : α), i < l.length → j < l.length →
      i ≠ j → List.Perm ((l.set i (l.getD j d)).set j b) (l.set i b) := by
  intro l
  induction l with
  | nil => intro i j b d hi hj hij; simp at hi
  | cons x xs ih =>
    intro i j b d hi hj hij
    cases i with
    | zero =>
      cases j with
      | zero => omega
      | succ k =>
        have hk : k < xs.length := by simpa using hj
        simpa using perm_headSwap xs k b d hk
    | succ k =>
      cases j with
      | zero =>
        have hk : k < xs.length := by simpa using hi
        simpa using perm_crossSwap xs k x b hk
      | succ m =>
        have hk : k < xs.length := by simpa using hi
        have hm : m < xs.length := by simpa using hj
        simp only [List.getD_cons_succ, List.set_cons_succ]
        exact (ih k m b d hk hm (by omega)).cons x

/-- Swapping two slots is a permutation. -/
theorem perm_swapSlots {α : Type} (l : List α) (i j : Nat) (d : α)
    (hi : i < l.length) (hj : j < l.length) (hij : i ≠ j) :
    List.Perm ((l.set i (l.getD j d)).set j (l.getD i d)) l := by
  have h1 := perm_setSwap l i j (l.getD i d) d hi hj hij
  rwa [set_getD_self l i d hi] at h1

/-- The swap-form sift-up only permutes the array. -/
theorem siftUpMAux_perm (key : RTThread → Nat) :
    ∀ (fuel : Nat) (l : List RTThread) (pos : Nat), pos < l.length →
      List.Perm (siftUpMAux key fuel l pos) l := by
  intro fuel
  induction fuel with
  | zero => intro l pos hp; exact List.Perm.refl l
  | succ fuel ih =>
    intro l pos hp
    unfold siftUpMAux
    split
    · rename_i h
      have hne0 : pos ≠ 0 := by
        intro h0
        exact h.2 (by rw [h0, parentIdx_zero])
      have hlt : parentIdx pos < pos := parentIdx_lt (by omega)
      have hparlen : parentIdx pos < l.length := lt_of_lt_of_le hlt (le_of_lt hp)
      refine (ih _ (parentIdx pos) ?_).trans
        (perm_swapSlots l pos (parentIdx pos) dfltThread hp hparlen h.2)
      simp only [List.length_set]
      exact hparlen
    · exact List.Perm.refl l

/-- Entry-point form of `siftUpMAux_perm`. -/
theorem siftUpM_perm (key : RTThread → Nat) (pos : Nat) (l : List RTThread)
    (hp : pos < l.length) : List.Perm (siftUpM key l pos) l :=
  siftUpMAux_perm key (pos + 1) l pos hp

/-- The C sift-up (duplicate-based hole walk plus final store) computes
the same array as the swap-form walk started on the array with the new
element already written at `pos`. -/
theorem siftUpAux_eq_siftUpMAux (key : RTThread → Nat) (x : RTThread) :
    ∀ (fuel : Nat) (l : List RTThread) (pos : Nat), pos < l.length →
      siftUpAux key x fuel l pos = siftUpMAux key fuel (l.set pos x) pos := by
  intro fuel
  induction fuel with
  | zero => intro l pos hp; rfl
  | succ fuel ih =>
    intro l pos hp
    by_cases hpp : pos = parentIdx pos
    · unfold siftUpAux siftUpMAux
      rw [if_neg (by tauto), if_neg (by tauto)]
    · have hne0 : pos ≠ 0 := fun h0 => hpp (by rw [h0, parentIdx_zero])
      have hlt : parentIdx pos < pos := parentIdx_lt (by omega)
      have hparlen : parentIdx pos < l.length := lt_of_lt_of_le hlt (le_of_lt hp)
      have hpar_read : (l.set pos x).getD (parentIdx pos) dfltThread
          = l.getD (parentIdx pos) x := by
        rw [getD_set_ne l pos (parentIdx pos) x dfltThread (by omega)]
        exact getD_irrel l (parentIdx pos) dfltThread x hparlen
      have hpos_read : (l.set pos x).getD pos dfltThread = x :=
        getD_set_self l pos x dfltThread hp
      by_cases hc : key (l.getD (parentIdx pos) x) > key x
      · unfold siftUpAux siftUpMAux
        rw [if_pos ⟨hc, hpp⟩, if_pos (by rw [hpar_read, hpos_read]; exact ⟨hc, hpp⟩)]
        have e1 : ((l.set pos x).set pos ((l.set pos x).getD (parentIdx pos) dfltThread)).set
            (parentIdx pos) ((l.set pos x).getD pos dfltThread)
            = (l.set pos (l.getD (parentIdx pos) x)).set (parentIdx pos) x := by
          rw [hpar_read, hpos_read, List.set_set]
        rw [e1]
        exact ih (l.set pos (l.getD (parentIdx pos) x)) (parentIdx pos)
          (by rw [List.length_set]; exact hparlen)
      · unfold siftUpAux siftUpMAux
        rw [if_neg (by tauto), if_neg (by rw [hpar_read, hpos_read]; tauto)]

/-- Entry-point form of `siftUpAux_eq_siftUpMAux`. -/
theorem siftUp_eq_siftUpM (key : RTThread → Nat) (x : RTThread) (pos : Nat)
    (l : List RTThread) (hp : pos < l.length) :
    siftUp key x l pos = siftUpM key (l.set pos x) pos :=
  siftUpAux_eq_siftUpMAux key x (pos + 1) l pos hp

/-- Keys after a swap of two slots. -/
theorem kAt_swap (key : RTThread → Nat) (l : List RTThread) (pos par : Nat)
    (hpos : pos < l.length) (hpar : par < l.length) (hne : pos ≠ par) :
    (∀ i, i ≠ pos → i ≠ par →
        kAt key ((l.set pos (l.getD par dfltThread)).set par (l.getD pos dfltThread)) i
          = kAt key l i) ∧
    kAt key ((l.set pos (l.getD par dfltThread)).set par (l.getD pos dfltThread)) pos
      = kAt key l par ∧
    kAt key ((l.set pos (l.getD par dfltThread)).set par (l.getD pos dfltThread)) par
      = kAt key l pos := by
  refine ⟨?_, ?_, ?_⟩
  · intro i hip hipar
    unfold kAt
    rw [getD_set_ne _ par i _ _ (fun h => hipar h.symm),
      getD_set_ne _ pos i _ _ (fun h => hip h.symm)]
  · unfold kAt
    rw [getD_set_ne _ par pos _ _ (fun h => hne h.symm),
      getD_set_self l pos _ dfltThread hpos]
  · unfold kAt
    rw [getD_set_self (l.set pos (l.getD par dfltThread)) par _ dfltThread
      (by rw [List.length_set]; exact hpar)]

/-- One step of the swap-form sift-up preserves the walk invariant. -/
theorem invUp_step (key : RTThread → Nat) (l : List RTThread) (pos : Nat)
    (hp : pos < l.length)
    (hcond : kAt key l pos < kAt key l (parentIdx pos))
    (hne : pos ≠ parentIdx pos) (hinv : InvUp key l pos) :
    InvUp key
      ((l.set pos (l.getD (parentIdx pos) dfltThread)).set (parentIdx pos)
        (l.getD pos dfltThread))
      (parentIdx pos) := by
  obtain ⟨A, B⟩ := hinv
  have hne0 : pos ≠ 0 := fun h0 => hne (by rw [h0, parentIdx_zero])
  have hlt : parentIdx pos < pos := parentIdx_lt (by omega)
  have hparlen : parentIdx pos < l.length := lt_of_lt_of_le hlt (le_of_lt hp)
  obtain ⟨kO, kP, kQ⟩ := kAt_swap key l pos (parentIdx pos) hp hparlen
    (fun h => hne h)
  have hLen : ((l.set pos (l.getD (parentIdx pos) dfltThread)).set (parentIdx pos)
      (l.getD pos dfltThread)).length = l.length := by
    simp only [List.length_set]
  constructor
  · intro c hc hcpar
    rw [hLen] at hc
    by_cases hcpos : c = pos
    · rw [hcpos, kQ, kP]
      exact le_of_lt hcond
    · rw [kO c hcpos hcpar]
      by_cases hpc : parentIdx c = pos
      · rw [hpc, kP]
        exact B c hc hcpos hpc
      · by_cases hpc2 : parentIdx c = parentIdx pos
        · rw [hpc2, kQ]
          have h1 : kAt key l (parentIdx c) ≤ kAt key l c := A c hc hcpos
          rw [hpc2] at h1
          exact le_trans (le_of_lt hcond) h1
        · rw [kO (parentIdx c) hpc hpc2]
          exact A c hc hcpos
  · intro c hc hcpar hpc
    rw [hLen] at hc
    by_cases hpar0 : parentIdx pos = 0
    · have hpp : parentIdx (parentIdx pos) = parentIdx pos := by
        rw [hpar0, parentIdx_zero]
      rw [hpp, kQ]
      by_cases hcpos : c = pos
      · rw [hcpos, kP]
        exact le_of_lt hcond
      · rw [kO c hcpos hcpar]
        have h1 : kAt key l (parentIdx c) ≤ kAt key l c := A c hc hcpos
        rw [hpc] at h1
        exact le_trans (le_of_lt hcond) h1
    · have hg : parentIdx (parentIdx pos) < parentIdx pos := parentIdx_lt (by omega)
      have hgpos : parentIdx (parentIdx pos) ≠ pos := by omega
      have hgpar : parentIdx (parentIdx pos) ≠ parentIdx pos := by omega
      rw [kO (parentIdx (parentIdx pos)) hgpos hgpar]
      by_cases hcpos : c = pos
      · rw [hcpos, kP]
        exact A (parentIdx pos) hparlen (by omega)
      · rw [kO c hcpos hcpar]
        have h1 : kAt key l (parentIdx (parentIdx pos)) ≤ kAt key l (parentIdx pos) :=
          A (parentIdx pos) hparlen (by omega)
        have h2 : kAt key l (parentIdx c) ≤ kAt key l c := A c hc hcpos
        rw [hpc] at h2
        exact le_trans h1 h2

/-- When the sift-up walk stops, the invariant yields the heap property. -/
theorem invUp_stop (key : RTThread → Nat) (l : List RTThread) (pos : Nat)
    (hstop : ¬(kAt key l pos < kAt key l (parentIdx pos) ∧ pos ≠ parentIdx pos))
    (hinv : InvUp key l pos) : IsHeap key l := by
  intro i hi
  by_cases hip : i = pos
  · subst hip
    by_cases hpp : i = parentIdx i
    · rw [← hpp]
    · have : ¬ kAt key l i < kAt key l (parentIdx i) := fun hlt => hstop ⟨hlt, hpp⟩
      omega
  · exact hinv.1 i hi hip

/-- The swap-form sift-up of an array satisfying the walk invariant is a
heap. -/
theorem siftUpMAux_isHeap (key : RTThread → Nat) :
    ∀ (fuel : Nat) (l : List RTThread) (pos : Nat), pos < fuel → pos < l.length →
      InvUp key l pos → IsHeap key (siftUpMAux key fuel l pos) := by
  intro fuel
  induction fuel with
  | zero => intro l pos hf hp hinv; omega
  | succ fuel ih =>
    intro l pos hf hp hinv
    unfold siftUpMAux
    split
    · rename_i h
      have hne0 : pos ≠ 0 := fun h0 => h.2 (by rw [h0, parentIdx_zero])
      have hlt : parentIdx pos < pos := parentIdx_lt (by omega)
      have hparlen : parentIdx pos < l.length := lt_of_lt_of_le hlt (le_of_lt hp)
      exact ih _ (parentIdx pos) (by omega)
        (by simp only [List.length_set]; exact hparlen)
        (invUp_step key l pos hp h.1 h.2 hinv)
    · rename_i h
      refine invUp_stop key l pos ?_ hinv
      intro hcd
      exact h ⟨hcd.1, hcd.2⟩

/-- Entry-point form of `siftUpMAux_isHeap`. -/
theorem siftUpM_isHeap (key : RTThread → Nat) (pos : Nat) (l : List RTThread)
    (hp : pos < l.length) (hinv : InvUp key l pos) :
    IsHeap key (siftUpM key l pos) :=
  siftUpMAux_isHeap key (pos + 1) l pos (by omega) hp hinv

/-- Reading the appended slot. -/
theorem getD_append_length {α : Type} :
    ∀ (l : List α) (x d : α), (l ++ [x]).getD l.length d = x := by
  intro l
  induction l with
  | nil => intro x d; rfl
  | cons y ys ih =>
    intro x d
    simpa using ih x d

/-- Overwriting the appended slot with its own value. -/
theorem set_append_length {α : Type} (l : List α) (x : α) :
    (l ++ [x]).set l.length x = l ++ [x] := by
  have h : l.length < (l ++ [x]).length := by simp
  have := set_getD_self (l ++ [x]) l.length x h
  rwa [getD_append_length l x x] at this

/-- Heap insertion only adds the new element (P4 ingredient). -/
theorem heapEnq_perm (key : RTThread → Nat) (l : List RTThread) (x : RTThread) :
    List.Perm (heapEnq key l x) (x :: l) := by
  unfold heapEnq
  have hlen : l.length < (l ++ [x]).length := by simp
  rw [siftUp_eq_siftUpM key x l.length (l ++ [x]) hlen, set_append_length]
  exact (siftUpM_perm key l.length (l ++ [x]) hlen).trans (List.perm_append_singleton x l)

/-- Heap insertion grows the array by one. -/
theorem heapEnq_length (key : RTThread → Nat) (l : List RTThread) (x : RTThread) :
    (heapEnq key l x).length = l.length + 1 := by
  have := (heapEnq_perm key l x).length_eq
  simpa using this

/-- Heap insertion preserves the heap property. -/
theorem heapEnq_isHeap (key : RTThread → Nat) (l : List RTThread) (x : RTThread)
    (hl : IsHeap key l) : IsHeap key (heapEnq key l x) := by
  unfold heapEnq
  have hlen : l.length < (l ++ [x]).length := by simp
  rw [siftUp_eq_siftUpM key x l.length (l ++ [x]) hlen, set_append_length]
  refine siftUpM_isHeap key l.length (l ++ [x]) hlen ⟨?_, ?_⟩
  · intro c hc hcl
    have hc' : c < l.length := by
      simp only [List.length_append, List.length_singleton] at hc
      omega
    have hpar : parentIdx c < l.length := lt_of_le_of_lt (parentIdx_le c) hc'
    unfold kAt
    rw [List.getD_append l [x] dfltThread c hc', List.getD_append l [x] dfltThread _ hpar]
    exact hl c hc'
  · intro c hc hcl hpc
    exfalso
    by_cases hc0 : c = 0
    · rw [hc0, parentIdx_zero] at hpc
      exact hcl (by omega)
    · have := parentIdx_lt (i := c) (by omega)
      have hc' : c < l.length + 1 := by simpa using hc
      omega

/-- In a heap the root key is minimal. -/
theorem isHeap_root_le (key : RTThread → Nat) (l : List RTThread)
    (hl : IsHeap key l) : ∀ i, i < l.length → kAt key l 0 ≤ kAt key l i := by
  intro i
  induction i using Nat.strong_induction_on with
  | _ i ih =>
    intro hi
    by_cases h0 : i = 0
    · rw [h0]
    · have hlt : parentIdx i < i := parentIdx_lt (by omega)
      exact le_trans (ih (parentIdx i) hlt (by omega)) (hl i hi)

/-- Case split on the selected child. -/
theorem siftChild_cases (key : RTThread → Nat) (last : RTThread)
    (l : List RTThread) (now : Nat) (h : 2 * now + 1 < l.length) :
    (siftChild key last l now = 2 * now + 2 ∧
      key (l.getD (2 * now + 2) last) < key (l.getD (2 * now + 1) last)) ∨
    (siftChild key last l now = 2 * now + 1 ∧
      key (l.getD (2 * now + 1) last) ≤ key (l.getD (2 * now + 2) last)) := by
  unfold siftChild
  split
  · rename_i hcond
    exact Or.inl ⟨rfl, hcond.2⟩
  · rename_i hcond
    refine Or.inr ⟨rfl, ?_⟩
    by_cases h2 : key (l.getD (2 * now + 2) last) < key (l.getD (2 * now + 1) last)
    · exact absurd ⟨h, h2⟩ hcond
    · omega

/-- If the loop moves the child up, the selected child is a live index. -/
theorem siftChild_lt (key : RTThread → Nat) (last : RTThread) (l : List RTThread)
    (now : Nat) (h : 2 * now + 1 < l.length)
    (hgt : key (l.getD (siftChild key last l now) last) < key last) :
    siftChild key last l now < l.length := by
  rcases siftChild_cases key last l now h with ⟨he, -⟩ | ⟨he, -⟩
  · rw [he] at hgt ⊢
    by_contra hge
    rw [List.getD_eq_default l last (by omega)] at hgt
    omega
  · omega

/-- The sift-down loop permutes the array into the array with `last`
written at the hole. -/
theorem siftDownAux_perm (key : RTThread → Nat) (last : RTThread) :
    ∀ (n : Nat) (l : List RTThread) (now : Nat),
      List.Perm (siftDownAux key last n l now) (l.set now last) := by
  intro n
  induction n with
  | zero =>
    intro l now
    exact List.Perm.refl _
  | succ n ih =>
    intro l now
    unfold siftDownAux
    split
    · rename_i h
      split
      · rename_i hgt
        have hchild : siftChild key last l now < l.length :=
          siftChild_lt key last l now h hgt
        have hcgt : now < siftChild key last l now := (siftChild_gt key last l now).1
        have hperm := ih (l.set now (l.getD (siftChild key last l now) last))
          (siftChild key last l now)
        refine hperm.trans ?_
        exact perm_setSwap l now (siftChild key last l now) last last
          (by omega) hchild (by omega)
      · exact List.Perm.refl _
    · exact List.Perm.refl _

/-- Entry-point form of `siftDownAux_perm`. -/
theorem siftDown_perm (key : RTThread → Nat) (last : RTThread) (l : List RTThread)
    (now : Nat) : List.Perm (siftDown key last l now) (l.set now last) :=
  siftDownAux_perm key last (l.length + 1) l now

/-- In-range reads with default `last` agree with `kAt`. -/
theorem kAt_of_getD (key : RTThread → Nat) (last : RTThread) (l : List RTThread)
    (i : Nat) (hi : i < l.length) : key (l.getD i last) = kAt key l i := by
  unfold kAt
  rw [getD_irrel l i last dfltThread hi]

/-- Writing the walking element at the hole of an `InvDown` state whose
children bound it from above yields a heap. -/
theorem invDown_place (key : RTThread → Nat) (last : RTThread) (l : List RTThread)
    (now : Nat) (hnow : now < l.length) (hinv : InvDown key last l now)
    (hchild : ∀ c, c < l.length → c ≠ now → parentIdx c = now →
      key last ≤ kAt key l c) :
    IsHeap key (l.set now last) := by
  obtain ⟨A, -, C⟩ := hinv
  have hset : ∀ i, i ≠ now → kAt key (l.set now last) i = kAt key l i := by
    intro i hi
    unfold kAt
    rw [getD_set_ne l now i last dfltThread (fun h => hi h.symm)]
  have hsetnow : kAt key (l.set now last) now = key last := by
    unfold kAt
    rw [getD_set_self l now last dfltThread hnow]
  intro i hi
  rw [List.length_set] at hi
  by_cases hinow : i = now
  · rw [hinow]
    by_cases h0 : now = 0
    · rw [h0, parentIdx_zero]
    · have hlt : parentIdx now < now := parentIdx_lt (by omega)
      rw [hsetnow, hset (parentIdx now) (by omega)]
      exact C h0
  · rw [hset i hinow]
    by_cases hpi : parentIdx i = now
    · rw [hpi, hsetnow]
      exact hchild i hi hinow hpi
    · rw [hset (parentIdx i) hpi]
      exact A i hi hinow hpi

/-- The sift-down of an array satisfying the walk invariant is a heap. -/
theorem siftDownAux_isHeap (key : RTThread → Nat) (last : RTThread) :
    ∀ (n : Nat) (l : List RTThread) (now : Nat), l.length - now ≤ n →
      now < l.length → InvDown key last l now →
      IsHeap key (siftDownAux key last n l now) := by
  intro n
  induction n with
  | zero =>
    intro l now hn hnow hinv
    omega
  | succ n ih =>
    intro l now hn hnow hinv
    unfold siftDownAux
    split
    · rename_i h
      split
      · rename_i hgt
        have hchild : siftChild key last l now < l.length :=
          siftChild_lt key last l now h hgt
        have hcgt : now < siftChild key last l now := (siftChild_gt key last l now).1
        have hpc : parentIdx (siftChild key last l now) = now := by
          rcases siftChild_cases key last l now h with ⟨he, -⟩ | ⟨he, -⟩
          · rw [he]; exact parentIdx_right now
          · rw [he]; exact parentIdx_left now
        have hc0 : siftChild key last l now ≠ 0 := by omega
        obtain ⟨A, B, C⟩ := hinv
        have hkcv : key (l.getD (siftChild key last l now) last)
            = kAt key l (siftChild key last l now) :=
          kAt_of_getD key last l _ hchild
        have hset : ∀ i, i ≠ now →
            kAt key (l.set now (l.getD (siftChild key last l now) last)) i
              = kAt key l i := by
          intro i hi
          unfold kAt
          rw [getD_set_ne l now i _ dfltThread (fun hx => hi hx.symm)]
        have hsetnow : kAt key (l.set now (l.getD (siftChild key last l now) last)) now
            = kAt key l (siftChild key last l now) := by
          unfold kAt
          rw [getD_set_self l now _ dfltThread (by omega)]
          exact congrArg key (getD_irrel l _ last dfltThread hchild)
        refine ih (l.set now (l.getD (siftChild key last l now) last))
          (siftChild key last l now)
          (by simp only [List.length_set]; omega)
          (by simp only [List.length_set]; omega) ⟨?_, ?_, ?_⟩
        · intro c hc hcchild hpcc
          rw [List.length_set] at hc
          by_cases hcnow : c = now
          · rw [hcnow]
            by_cases h0 : now = 0
            · rw [h0, parentIdx_zero]
            · have hplt : parentIdx now < now := parentIdx_lt (by omega)
              rw [hsetnow, hset (parentIdx now) (by omega)]
              rcases B (siftChild key last l now) hchild (by omega) hpc with h' | h'
              · omega
              · exact h'
          · rw [hset c hcnow]
            by_cases hpcn : parentIdx c = now
            · rw [hpcn, hsetnow]
              have hcne0 : c ≠ 0 := by
                intro hz
                rw [hz, parentIdx_zero] at hpcn
                omega
              have hcch : c = 2 * now + 1 ∨ c = 2 * now + 2 :=
                (parentIdx_eq_iff hcne0).1 hpcn
              rcases siftChild_cases key last l now h with ⟨he, hcmp⟩ | ⟨he, hcmp⟩
              · have hcl : c = 2 * now + 1 := by
                  rcases hcch with h' | h'
                  · exact h'
                  · exfalso; rw [← he] at h'; exact hcchild h'
                rw [he, ← kAt_of_getD key last l (2 * now + 2) (by rw [← he]; exact hchild),
                  hcl, ← kAt_of_getD key last l (2 * now + 1) (by omega)]
                omega
              · have hcr : c = 2 * now + 2 := by
                  rcases hcch with h' | h'
                  · exfalso; rw [← he] at h'; exact hcchild h'
                  · exact h'
                rw [he, ← kAt_of_getD key last l (2 * now + 1) (by rw [← he]; exact hchild),
                  hcr, ← kAt_of_getD key last l (2 * now + 2) (by rw [← hcr]; exact hc)]
                omega
            · rw [hset (parentIdx c) hpcn]
              exact A c hc hcnow hpcn
        · intro c hc hcchild hpcc
          rw [List.length_set] at hc
          right
          have hcne0 : c ≠ 0 := by
            intro hz
            rw [hz, parentIdx_zero] at hpcc
            exact hc0 hpcc.symm
          have hclt : siftChild key last l now < c := by
            have := parentIdx_lt (i := c) (by omega)
            omega
          have hcnow : c ≠ now := by omega
          rw [hpc, hsetnow, hset c hcnow]
          have := A c hc hcnow (by rw [hpcc]; omega)
          rw [hpcc] at this
          exact this
        · intro h0
          rw [hpc, hsetnow, ← hkcv]
          omega
      · rename_i hle
        refine invDown_place key last l now (by omega) ⟨hinv.1, hinv.2.1, hinv.2.2⟩ ?_
        intro c hc hcnow hpcn
        have hcne0 : c ≠ 0 := by
          intro hz
          rw [hz, parentIdx_zero] at hpcn
          omega
        have hcch : c = 2 * now + 1 ∨ c = 2 * now + 2 :=
          (parentIdx_eq_iff hcne0).1 hpcn
        rcases siftChild_cases key last l now h with ⟨he, hcmp⟩ | ⟨he, hcmp⟩
        · rw [he] at hle
          rcases hcch with h' | h'
          · rw [← kAt_of_getD key last l c (by omega), h']
            omega
          · rw [← kAt_of_getD key last l c (by omega), h']
            omega
        · rw [he] at hle
          rcases hcch with h' | h'
          · rw [← kAt_of_getD key last l c (by omega), h']
            omega
          · rw [← kAt_of_getD key last l c (by omega), h']
            omega
    · rename_i h
      refine invDown_place key last l now hnow hinv ?_
      intro c hc hcnow hpcn
      exfalso
      have hcne0 : c ≠ 0 := by
        intro hz
        rw [hz, parentIdx_zero] at hpcn
        omega
      have := (parentIdx_eq_iff hcne0).1 hpcn
      omega

/-- Entry-point form of `siftDownAux_isHeap`. -/
theorem siftDown_isHeap (key : RTThread → Nat) (last : RTThread) (l : List RTThread)
    (now : Nat) (hnow : now < l.length) (hinv : InvDown key last l now) :
    IsHeap key (siftDown key last l now) :=
  siftDownAux_isHeap key last (l.length + 1) l now (by omega) hnow hinv

/-- Reads below the last index survive `dropLast`. -/
theorem getD_dropLast {α : Type} :
    ∀ (l : List α) (i : Nat) (d : α), i < l.length - 1 →
      l.dropLast.getD i d = l.getD i d := by
  intro l
  induction l with
  | nil => intro i d h; simp at h
  | cons x xs ih =>
    intro i d h
    cases xs with
    | nil => simp at h
    | cons y ys =>
      rw [List.dropLast_cons_of_ne_nil (by simp)]
      cases i with
      | zero => rfl
      | succ k =>
        simp only [List.getD_cons_succ]
        exact ih k d (by simp at h ⊢; omega)

/-- Entry state of the dequeue sift-down: dropping the last element of a
heap and opening the hole at the root satisfies the walk invariant. -/
theorem invDown_entry (key : RTThread → Nat) (last : RTThread) (l : List RTThread)
    (hl : IsHeap key l) : InvDown key last l.dropLast 0 := by
  refine ⟨?_, ?_, ?_⟩
  · intro c hc hc0 hpc0
    rw [List.length_dropLast] at hc
    unfold kAt
    rw [getD_dropLast l c dfltThread hc,
      getD_dropLast l (parentIdx c) dfltThread (lt_of_le_of_lt (parentIdx_le c) hc)]
    exact hl c (by omega)
  · intro c hc hc0 hpc
    exact Or.inl rfl
  · intro h0
    exact absurd rfl h0

/-- Unfolding of the heap dequeue on a root that is not marked for
removal. -/
theorem heapDequeue_cons (key : RTThread → Nat) (x : RTThread) (xs : List RTThread)
    (hx : x.status ≠ RTStatus.tobeRemoved) :
    heapDequeue key (x :: xs)
      = (some x, siftDown key ((x :: xs).getLastD dfltThread) (x :: xs).dropLast 0) := by
  unfold heapDequeue
  simp only [List.length_cons]
  unfold heapDequeueAux
  simp [hx]

/-- The dequeue removes exactly the root (P4 ingredient). -/
theorem heapDequeue_perm (key : RTThread → Nat) (x : RTThread) (xs : List RTThread)
    (hx : x.status ≠ RTStatus.tobeRemoved) :
    List.Perm (x :: (heapDequeue key (x :: xs)).2) (x :: xs) := by
  rw [heapDequeue_cons key x xs hx]
  cases xs with
  | nil =>
    have : siftDown key (([x] : List RTThread).getLastD dfltThread)
        ([x] : List RTThread).dropLast 0 = [] := rfl
    rw [this]
  | cons y ys =>
    have hne : (y :: ys : List RTThread) ≠ [] := by simp
    have hp := siftDown_perm key ((x :: y :: ys).getLastD dfltThread)
      (x :: y :: ys).dropLast 0
    rw [List.dropLast_cons_of_ne_nil hne] at hp
    have hlast : (x :: y :: ys).getLastD dfltThread = (y :: ys).getLast hne := by
      rw [List.getLastD_cons, List.getLastD_eq_getLast? _ _, List.getLast?_eq_getLast _ hne]
      rfl
    rw [List.dropLast_cons_of_ne_nil hne]
    refine ((hp.cons x).trans ?_)
    rw [hlast]
    simp only [List.set_cons_zero]
    refine List.Perm.cons x ?_
    have h1 : (y :: ys).dropLast ++ [(y :: ys).getLast hne] = y :: ys :=
      List.dropLast_append_getLast hne
    have h2 := List.perm_append_singleton ((y :: ys).getLast hne) (y :: ys).dropLast
    rw [h1] at h2
    exact h2.symm

/-- The dequeue of a heap leaves a heap (P2 preservation). -/
theorem heapDequeue_isHeap (key : RTThread → Nat) (x : RTThread) (xs : List RTThread)
    (hx : x.status ≠ RTStatus.tobeRemoved) (hl : IsHeap key (x :: xs)) :
    IsHeap key (heapDequeue key (x :: xs)).2 := by
  rw [heapDequeue_cons key x xs hx]
  by_cases hlen : (x :: xs).dropLast.length = 0
  · intro i hi
    rw [siftDown_len, hlen] at hi
    omega
  · exact siftDown_isHeap key ((x :: xs).getLastD dfltThread)
      (x :: xs).dropLast 0 (by omega)
      (invDown_entry key ((x :: xs).getLastD dfltThread) (x :: xs) hl)

/-- The root of a heap has the minimal key. -/
theorem heapRoot_min (key : RTThread → Nat) (x : RTThread) (xs : List RTThread)
    (hl : IsHeap key (x :: xs)) : ∀ y ∈ x :: xs, key x ≤ key y := by
  intro y hy
  obtain ⟨i, hi, hgd⟩ := (mem_iff_getD (x :: xs) y dfltThread).1 hy
  have h := isHeap_root_le key (x :: xs) hl i hi
  unfold kAt at h
  rw [hgd, List.getD_cons_zero] at h
  exact h

/-- Heap dispatch of `dequeue_thread` for the three heap queue types. -/
theorem dequeue_thread_eq_heap (qt : QueueType) (l : List RTThread)
    (hqt : qt = QueueType.runnableQueue ∨ qt = QueueType.pendingQueue ∨
      qt = QueueType.aperiodicQueue) :
    dequeue_thread qt l = heapDequeue (heapKeyOf qt) l := by
  rcases hqt with h | h | h
  all_goals rw [h]
  all_goals rfl

/-- Heap dispatch of `enqueue_thread` for the three heap queue types. -/
theorem enqueue_thread_eq_heap (qt : QueueType) (l : List RTThread) (t : RTThread)
    (hqt : qt = QueueType.runnableQueue ∨ qt = QueueType.pendingQueue ∨
      qt = QueueType.aperiodicQueue) :
    enqueue_thread qt l t
      = if l.length = MAX_QUEUE then l else heapEnq (heapKeyOf qt) l (heapTag qt t) := by
  rcases hqt with h | h | h
  all_goals rw [h]
  all_goals rfl

/-- Draining a clean heap by repeated dequeue yields its elements in
non-decreasing key order. -/
theorem drainQueueAux_spec (qt : QueueType)
    (hqt : qt = QueueType.runnableQueue ∨ qt = QueueType.pendingQueue ∨
      qt = QueueType.aperiodicQueue) :
    ∀ (fuel : Nat) (l : List RTThread), l.length ≤ fuel →
      IsHeap (heapKeyOf qt) l → (∀ y ∈ l, y.status ≠ RTStatus.tobeRemoved) →
      List.Sorted (fun a b => heapKeyOf qt a ≤ heapKeyOf qt b)
        (drainQueueAux qt fuel l) ∧
      List.Perm (drainQueueAux qt fuel l) l := by
  intro fuel
  induction fuel with
  | zero =>
    intro l hlen hheap hclean
    have hnil : l = [] := List.length_eq_zero.1 (by omega)
    rw [hnil]
    exact ⟨List.sorted_nil, List.Perm.refl _⟩
  | succ fuel ih =>
    intro l hlen hheap hclean
    cases l with
    | nil =>
      have : drainQueueAux qt (fuel + 1) [] = [] := by
        unfold drainQueueAux
        rw [dequeue_thread_eq_heap qt [] hqt]
        rfl
      rw [this]
      exact ⟨List.sorted_nil, List.Perm.refl _⟩
    | cons x xs =>
      have hx : x.status ≠ RTStatus.tobeRemoved := hclean x (by simp)
      have hdq : dequeue_thread qt (x :: xs)
          = (some x, siftDown (heapKeyOf qt) ((x :: xs).getLastD dfltThread)
              (x :: xs).dropLast 0) := by
        rw [dequeue_thread_eq_heap qt (x :: xs) hqt]
        exact heapDequeue_cons _ x xs hx
      have hsnd : (heapDequeue (heapKeyOf qt) (x :: xs)).2
          = siftDown (heapKeyOf qt) ((x :: xs).getLastD dfltThread)
              (x :: xs).dropLast 0 := by
        rw [heapDequeue_cons _ x xs hx]
      have hstep : drainQueueAux qt (fuel + 1) (x :: xs)
          = x :: drainQueueAux qt fuel (heapDequeue (heapKeyOf qt) (x :: xs)).2 := by
        conv_lhs => unfold drainQueueAux
        rw [hdq, hsnd]
      have hperm2 : List.Perm (heapDequeue (heapKeyOf qt) (x :: xs)).2 xs :=
        (heapDequeue_perm (heapKeyOf qt) x xs hx).cons_inv
      have hlen2 : (heapDequeue (heapKeyOf qt) (x :: xs)).2.length ≤ fuel := by
        rw [hperm2.length_eq]
        simp only [List.length_cons] at hlen
        omega
      have hclean2 : ∀ y ∈ (heapDequeue (heapKeyOf qt) (x :: xs)).2,
          y.status ≠ RTStatus.tobeRemoved := by
        intro y hy
        exact hclean y (by
          have := hperm2.mem_iff.1 hy
          simp [this])
      obtain ⟨hs, hp⟩ := ih (heapDequeue (heapKeyOf qt) (x :: xs)).2 hlen2
        (heapDequeue_isHeap (heapKeyOf qt) x xs hx hheap) hclean2
      rw [hstep]
      constructor
      · rw [List.sorted_cons]
        refine ⟨?_, hs⟩
        intro b hb
        have hbmem : b ∈ x :: xs := by
          have := (hp.trans hperm2).mem_iff.1 hb
          simp [this]
        exact heapRoot_min (heapKeyOf qt) x xs hheap b hbmem
      · exact (hp.trans hperm2).cons x

/-- Enqueuing a list of descriptors into a heap queue below capacity
keeps the heap property and adds exactly the tagged descriptors. -/
theorem foldl_enqueue_spec (qt : QueueType)
    (hqt : qt = QueueType.runnableQueue ∨ qt = QueueType.pendingQueue ∨
      qt = QueueType.aperiodicQueue) :
    ∀ (S l : List RTThread), IsHeap (heapKeyOf qt) l →
      l.length + S.length ≤ MAX_QUEUE →
      IsHeap (heapKeyOf qt) (S.foldl (enqueue_thread qt) l) ∧
      List.Perm (S.foldl (enqueue_thread qt) l) (l ++ S.map (heapTag qt)) ∧
      (S.foldl (enqueue_thread qt) l).length = l.length + S.length := by
  intro S
  induction S with
  | nil =>
    intro l hheap hlen
    refine ⟨hheap, ?_, by simp⟩
    simp
  | cons t S' ih =>
    intro l hheap hlen
    have hlt : l.length ≠ MAX_QUEUE := by
      simp only [List.length_cons] at hlen
      omega
    have henq : enqueue_thread qt l t = heapEnq (heapKeyOf qt) l (heapTag qt t) := by
      rw [enqueue_thread_eq_heap qt l t hqt, if_neg hlt]
    have hfold : (t :: S').foldl (enqueue_thread qt) l
        = S'.foldl (enqueue_thread qt) (heapEnq (heapKeyOf qt) l (heapTag qt t)) := by
      rw [List.foldl_cons, henq]
    have hlen1 : (heapEnq (heapKeyOf qt) l (heapTag qt t)).length = l.length + 1 :=
      heapEnq_length ..
    obtain ⟨ih1, ih2, ih3⟩ := ih (heapEnq (heapKeyOf qt) l (heapTag qt t))
      (heapEnq_isHeap (heapKeyOf qt) l (heapTag qt t) hheap)
      (by rw [hlen1]; simp only [List.length_cons] at hlen; omega)
    rw [hfold]
    refine ⟨ih1, ?_, by rw [ih3, hlen1]; simp; omega⟩
    refine ih2.trans ?_
    have h1 : List.Perm (heapEnq (heapKeyOf qt) l (heapTag qt t)) (heapTag qt t :: l) :=
      heapEnq_perm ..
    refine (h1.append_right (S'.map (heapTag qt))).trans ?_
    simp only [List.map_cons, List.cons_append]
    exact (List.perm_middle).symm

/-- C9, counterexample to the claim as stated: enqueueing the single
descriptor below (status `TOBE_REMOVED`) into the runnable heap and
draining yields the empty list — not the enqueued element — because
`dequeue_thread` silently skips descriptors marked for removal.  So the
drain is not a permutation of the enqueued set. -/
theorem c9_original_false :
    drainQueue QueueType.runnableQueue
        ([{ tid := 1, ttype := RTType.periodic, status := RTStatus.tobeRemoved,
            qType := QueueType.runnableQueue,
            constraints := { period := 10, slice := 2, work := 0, priority := 0 },
            startTime := 0, runTime := 0, deadline := 5, exitTime := 0 }].foldl
          (enqueue_thread QueueType.runnableQueue) []) = [] ∧
    ¬ List.Perm
        (drainQueue QueueType.runnableQueue
          ([{ tid := 1, ttype := RTType.periodic, status := RTStatus.tobeRemoved,
              qType := QueueType.runnableQueue,
              constraints := { period := 10, slice := 2, work := 0, priority := 0 },
              startTime := 0, runTime := 0, deadline := 5, exitTime := 0 }].foldl
            (enqueue_thread QueueType.runnableQueue) []))
        ([{ tid := 1, ttype := RTType.periodic, status := RTStatus.tobeRemoved,
            qType := QueueType.runnableQueue,
            constraints := { period := 10, slice := 2, work := 0, priority := 0 },
            startTime := 0, runTime := 0, deadline := 5, exitTime := 0 }].map
          (heapTag QueueType.runnableQueue)) := by
  constructor
  · decide
  · decide

/-- C9 (amended: descriptors with status `TOBE_REMOVED` are skipped and
dropped by dequeue, so the property holds for sets without them): for a
ring queue, enqueueing a descriptor into an empty queue and then
dequeueing returns that same descriptor (carrying the queue tag and the
status the ring enqueue itself writes); and for each heap queue
(runnable, pending, aperiodic), enqueueing any set `S` with `|S|` at
most the capacity and draining by repeated dequeue yields exactly the
elements of `S` (tagged with the queue type) in non-decreasing order of
the queue's ordering key — deadline for runnable and pending, aperiodic
priority for aperiodic. -/
theorem c9_queue_discipline :
    (∀ (qt : QueueType) (x : RTThread),
      (qt = QueueType.arrivalQueue ∨ qt = QueueType.waitingQueue ∨
        qt = QueueType.sleepingQueue ∨ qt = QueueType.exitedQueue) →
      x.status ≠ RTStatus.tobeRemoved →
      (ringDequeue (ringEnqueue (emptyRing qt) x)).1 = some (ringTag qt x)) ∧
    (∀ (qt : QueueType) (S : List RTThread),
      (qt = QueueType.runnableQueue ∨ qt = QueueType.pendingQueue ∨
        qt = QueueType.aperiodicQueue) →
      S.length ≤ MAX_QUEUE →
      (∀ x ∈ S, x.status ≠ RTStatus.tobeRemoved) →
      List.Perm (drainQueue qt (S.foldl (enqueue_thread qt) []))
        (S.map (heapTag qt)) ∧
      List.Sorted (fun a b => heapKeyOf qt a ≤ heapKeyOf qt b)
        (drainQueue qt (S.foldl (enqueue_thread qt) []))) := by
  constructor
  · intro qt x hqt hx
    rcases hqt with h | h | h | h
    · subst h; rfl
    · subst h; rfl
    · subst h; rfl
    · subst h
      show (ringDequeueAux _ _).1 = _
      unfold ringEnqueue emptyRing
      norm_num [MAX_QUEUE]
      unfold ringDequeueAux
      norm_num [sub64, U64, hx, ringTag]
  · intro qt S hqt hS hclean
    obtain ⟨hh, hp, hl⟩ := foldl_enqueue_spec qt hqt S []
      (fun i hi => absurd hi (by simp)) (by simpa using hS)
    rw [List.nil_append] at hp
    have hcleanq : ∀ y ∈ S.foldl (enqueue_thread qt) [],
        y.status ≠ RTStatus.tobeRemoved := by
      intro y hy
      have hym := hp.mem_iff.1 hy
      obtain ⟨z, hz, rfl⟩ := List.mem_map.1 hym
      have hst : (heapTag qt z).status = z.status := rfl
      rw [hst]
      exact hclean z hz
    obtain ⟨hs, hdp⟩ := drainQueueAux_spec qt hqt (S.foldl (enqueue_thread qt) []).length
      (S.foldl (enqueue_thread qt) []) (le_refl _) hh hcleanq
    exact ⟨hdp.trans hp, hs⟩

/-- Witness for C9: the amended theorem applied to a concrete arrival
ring singleton and a concrete two-element runnable heap. -/
theorem c9_queue_discipline_inst :
    ((ringDequeue (ringEnqueue (emptyRing QueueType.arrivalQueue)
        { tid := 2, ttype := RTType.aperiodic, status := RTStatus.admitted,
          qType := QueueType.aperiodicQueue,
          constraints := { period := 0, slice := 0, work := 0, priority := 7 },
          startTime := 0, runTime := 0, deadline := 0, exitTime := 0 })).1
      = some (ringTag QueueType.arrivalQueue
        { tid := 2, ttype := RTType.aperiodic, status := RTStatus.admitted,
          qType := QueueType.aperiodicQueue,
          constraints := { period := 0, slice := 0, work := 0, priority := 7 },
          startTime := 0, runTime := 0, deadline := 0, exitTime := 0 })) ∧
    (List.Perm
        (drainQueue QueueType.runnableQueue
          ([{ tid := 3, ttype := RTType.periodic, status := RTStatus.admitted,
              qType := QueueType.runnableQueue,
              constraints := { period := 10, slice := 2, work := 0, priority := 0 },
              startTime := 0, runTime := 0, deadline := 50, exitTime := 0 },
            { tid := 4, ttype := RTType.periodic, status := RTStatus.admitted,
              qType := QueueType.runnableQueue,
              constraints := { period := 20, slice := 3, work := 0, priority := 0 },
              startTime := 0, runTime := 0, deadline := 20, exitTime := 0 }].foldl
            (enqueue_thread QueueType.runnableQueue) []))
        ([{ tid := 3, ttype := RTType.periodic, status := RTStatus.admitted,
            qType := QueueType.runnableQueue,
            constraints := { period := 10, slice := 2, work := 0, priority := 0 },
            startTime := 0, runTime := 0, deadline := 50, exitTime := 0 },
          { tid := 4, ttype := RTType.periodic, status := RTStatus.admitted,
            qType := QueueType.runnableQueue,
            constraints := { period := 20, slice := 3, work := 0, priority := 0 },
            startTime := 0, runTime := 0, deadline := 20, exitTime := 0 }].map
          (heapTag QueueType.runnableQueue)) ∧
      List.Sorted (fun a b => heapKeyOf QueueType.runnableQueue a
          ≤ heapKeyOf QueueType.runnableQueue b)
        (drainQueue QueueType.runnableQueue
          ([{ tid := 3, ttype := RTType.periodic, status := RTStatus.admitted,
              qType := QueueType.runnableQueue,
              constraints := { period := 10, slice := 2, work := 0, priority := 0 },
              startTime := 0, runTime := 0, deadline := 50, exitTime := 0 },
            { tid := 4, ttype := RTType.periodic, status := RTStatus.admitted,
              qType := QueueType.runnableQueue,
              constraints := { period := 20, slice := 3, work := 0, priority := 0 },
              startTime := 0, runTime := 0, deadline := 20, exitTime := 0 }].foldl
            (enqueue_thread QueueType.runnableQueue) []))) :=
  ⟨c9_queue_discipline.1 QueueType.arrivalQueue _ (Or.inl rfl) (by decide),
   c9_queue_discipline.2 QueueType.runnableQueue _ (Or.inl rfl) (by decide) (by decide)⟩

/-- The modulus is positive. -/
theorem U64_pos : 0 < U64 := by
  unfold U64
  omega

/-- The wrapping subtraction stays below the modulus. -/
theorem sub64_lt (a b : Nat) : sub64 a b < U64 :=
  Nat.mod_lt _ U64_pos

/-- The `uint64_t` utilization fold computes the wrapped sum of the
periodic terms. -/
theorem foldl_per (l : List RTThread) :
    ∀ u, u < U64 →
      l.foldl (fun util t => if t.ttype = RTType.periodic
          then (util + perTerm t) % U64 else util) u
        = (u + sumPer l) % U64 := by
  induction l with
  | nil =>
    intro u hu
    simp [sumPer, Nat.mod_eq_of_lt hu]
  | cons t l' ih =>
    intro u hu
    by_cases ht : t.ttype = RTType.periodic
    · rw [List.foldl_cons, if_pos ht, ih _ (Nat.mod_lt _ U64_pos)]
      have hsum : sumPer (t :: l') = perTerm t + sumPer l' := by
        simp [sumPer, ht]
      rw [hsum, Nat.mod_add_mod]
      exact congrArg (· % U64) (by omega)
    · rw [List.foldl_cons, if_neg ht, ih _ hu]
      have hsum : sumPer (t :: l') = sumPer l' := by
        simp [sumPer, ht]
      rw [hsum]
  
/-- Closed form of `get_per_util`. -/
theorem get_per_util_eq (runnable pending : List RTThread) :
    get_per_util runnable pending = (sumPer runnable + sumPer pending) % U64 := by
  unfold get_per_util
  rw [foldl_per runnable 0 U64_pos, foldl_per pending _ (Nat.mod_lt _ U64_pos),
    Nat.mod_add_mod]
  exact congrArg (· % U64) (by omega)

/-- C5: `rt_admit` accepts a periodic candidate iff the wrapped sum of
`slice * 100000 / period` over the periodic threads of runnable and
pending, plus the candidate's own term, is at most `PERIODIC_UTIL`
(65000); consequently the utilization of the admitted set — candidate
included — is at most the bound. -/
theorem c5_admission_iff (runnable pending : List RTThread) (cand : RTThread)
    (now : Nat) (hc : cand.ttype = RTType.periodic) :
    (rt_admission runnable pending cand now = true ↔
      (get_per_util runnable pending + perTerm cand) % U64 ≤ PERIODIC_UTIL) ∧
    (rt_admission runnable pending cand now = true →
      get_per_util (runnable ++ [cand]) pending ≤ PERIODIC_UTIL) := by
  have hiff : rt_admission runnable pending cand now = true ↔
      (get_per_util runnable pending + perTerm cand) % U64 ≤ PERIODIC_UTIL := by
    unfold rt_admission
    rw [if_pos hc]
    split
    · rename_i hgt
      constructor
      · intro hfalse
        exact absurd hfalse (by simp)
      · intro hle
        omega
    · rename_i hng
      constructor
      · intro htrue
        omega
      · intro hle
        rfl
  refine ⟨hiff, ?_⟩
  intro hacc
  have hle := hiff.1 hacc
  have heq : get_per_util (runnable ++ [cand]) pending
      = (get_per_util runnable pending + perTerm cand) % U64 := by
    rw [get_per_util_eq, get_per_util_eq]
    have hcand : sumPer (runnable ++ [cand]) = sumPer runnable + perTerm cand := by
      simp [sumPer, hc]
    rw [hcand, Nat.mod_add_mod]
    exact congrArg (· % U64) (by omega)
  rw [heq]
  exact hle

/-- Witness for C5 at a concrete state: one periodic thread of
utilization 10000 on runnable, empty pending, and a periodic candidate
of utilization 20000; the candidate is accepted and the bound holds. -/
theorem c5_admission_iff_inst :
    (rt_admission
        [{ tid := 3, ttype := RTType.periodic, status := RTStatus.admitted,
           qType := QueueType.runnableQueue,
           constraints := { period := 10, slice := 1, work := 0, priority := 0 },
           startTime := 0, runTime := 0, deadline := 50, exitTime := 0 }] []
        { tid := 4, ttype := RTType.periodic, status := RTStatus.arrived,
          qType := QueueType.arrivalQueue,
          constraints := { period := 10, slice := 2, work := 0, priority := 0 },
          startTime := 0, runTime := 0, deadline := 60, exitTime := 0 } 0 = true ↔
      (get_per_util
          [{ tid := 3, ttype := RTType.periodic, status := RTStatus.admitted,
             qType := QueueType.runnableQueue,
             constraints := { period := 10, slice := 1, work := 0, priority := 0 },
             startTime := 0, runTime := 0, deadline := 50, exitTime := 0 }] []
        + perTerm
          { tid := 4, ttype := RTType.periodic, status := RTStatus.arrived,
            qType := QueueType.arrivalQueue,
            constraints := { period := 10, slice := 2, work := 0, priority := 0 },
            startTime := 0, runTime := 0, deadline := 60, exitTime := 0 }) % U64
        ≤ PERIODIC_UTIL) ∧
    (rt_admission
        [{ tid := 3, ttype := RTType.periodic, status := RTStatus.admitted,
           qType := QueueType.runnableQueue,
           constraints := { period := 10, slice := 1, work := 0, priority := 0 },
           startTime := 0, runTime := 0, deadline := 50, exitTime := 0 }] []
        { tid := 4, ttype := RTType.periodic, status := RTStatus.arrived,
          qType := QueueType.arrivalQueue,
          constraints := { period := 10, slice := 2, work := 0, priority := 0 },
          startTime := 0, runTime := 0, deadline := 60, exitTime := 0 } 0 = true →
      get_per_util
          ([{ tid := 3, ttype := RTType.periodic, status := RTStatus.admitted,
              qType := QueueType.runnableQueue,
              constraints := { period := 10, slice := 1, work := 0, priority := 0 },
              startTime := 0, runTime := 0, deadline := 50, exitTime := 0 }] ++
            [{ tid := 4, ttype := RTType.periodic, status := RTStatus.arrived,
               qType := QueueType.arrivalQueue,
               constraints := { period := 10, slice := 2, work := 0, priority := 0 },
               startTime := 0, runTime := 0, deadline := 60, exitTime := 0 }]) []
        ≤ PERIODIC_UTIL) :=
  c5_admission_iff _ _ _ 0 (by decide)

/-- C6: with zero slack, the one-shot interval chosen by `set_timer` is
at most the chosen thread's remaining budget (`slice - run_time` for
periodic, `work - run_time` for sporadic, `QUANTUM` for aperiodic), and,
when the pending queue is non-empty, at most the gap
`pending.root.deadline - end_time` until the nearest release. -/
theorem c6_timer_min (pendingQ : List RTThread) (t : RTThread) (end_time : Nat) :
    (set_timer_interval pendingQ t end_time 0 ≤
      (match t.ttype with
        | RTType.periodic => sub64 t.constraints.slice t.runTime
        | RTType.sporadic => sub64 t.constraints.work t.runTime
        | RTType.aperiodic => QUANTUM)) ∧
    (∀ p ps, pendingQ = p :: ps →
      set_timer_interval pendingQ t end_time 0 ≤ sub64 p.deadline end_time) := by
  have hmod : ∀ a b : Nat, (sub64 a b + 0) % U64 = sub64 a b := by
    intro a b
    rw [Nat.add_zero]
    exact Nat.mod_eq_of_lt (sub64_lt a b)
  constructor
  · cases pendingQ with
    | nil =>
      cases ht : t.ttype
      all_goals simp [set_timer_interval, ht, hmod]
      all_goals exact Nat.mod_le _ _
    | cons p ps =>
      cases ht : t.ttype
      all_goals simp [set_timer_interval, ht, hmod]
      all_goals exact Or.inr (Nat.mod_le _ _)
  · intro p ps hp
    subst hp
    cases ht : t.ttype
    all_goals simp [set_timer_interval, ht, hmod]

/-- Witness for C6: a periodic thread with 7 budget ticks left and a
pending root due in 50 ticks; the theorem applied there. -/
theorem c6_timer_min_inst :
    (set_timer_interval
        [{ tid := 8, ttype := RTType.periodic, status := RTStatus.admitted,
           qType := QueueType.pendingQueue,
           constraints := { period := 100, slice := 10, work := 0, priority := 0 },
           startTime := 0, runTime := 0, deadline := 500, exitTime := 0 }]
        { tid := 9, ttype := RTType.periodic, status := RTStatus.running,
          qType := QueueType.runnableQueue,
          constraints := { period := 40, slice := 10, work := 0, priority := 0 },
          startTime := 0, runTime := 3, deadline := 480, exitTime := 0 } 450 0 ≤
      (match
          ({ tid := 9, ttype := RTType.periodic, status := RTStatus.running,
             qType := QueueType.runnableQueue,
             constraints := { period := 40, slice := 10, work := 0, priority := 0 },
             startTime := 0, runTime := 3, deadline := 480, exitTime := 0 } : RTThread).ttype with
        | RTType.periodic => sub64 10 3
        | RTType.sporadic => sub64 0 3
        | RTType.aperiodic => QUANTUM)) ∧
    (∀ p ps,
      ([{ tid := 8, ttype := RTType.periodic, status := RTStatus.admitted,
          qType := QueueType.pendingQueue,
          constraints := { period := 100, slice := 10, work := 0, priority := 0 },
          startTime := 0, runTime := 0, deadline := 500, exitTime := 0 }]
        : List RTThread) = p :: ps →
      set_timer_interval
        [{ tid := 8, ttype := RTType.periodic, status := RTStatus.admitted,
           qType := QueueType.pendingQueue,
           constraints := { period := 100, slice := 10, work := 0, priority := 0 },
           startTime := 0, runTime := 0, deadline := 500, exitTime := 0 }]
        { tid := 9, ttype := RTType.periodic, status := RTStatus.running,
          qType := QueueType.runnableQueue,
          constraints := { period := 40, slice := 10, work := 0, priority := 0 },
          startTime := 0, runTime := 3, deadline := 480, exitTime := 0 } 450 0
        ≤ sub64 p.deadline 450) :=
  c6_timer_min _ _ 450

/-- C10: `rt_admit` is read-only — its statement-by-statement embedding
returns the verdict together with the scheduler state and the candidate
it was given, unchanged, on every path. -/
theorem c10_admission_frame (s : Sched) (t : RTThread) (now : Nat) :
    rt_admission_st s t now = (rt_admission s.runnable s.pending t now, s, t) := by
  unfold rt_admission_st rt_admission
  split
  · split
    · rfl
    · rfl
  · split
    · split
      · rfl
      · rfl
    · rfl

/-- A descriptor returned by a dequeue never has status `TOBE_REMOVED`:
the skip branch recurses instead of returning it.  (General supporting
fact for the skip behaviour of `dequeue_thread`.) -/
theorem heapDequeueAux_some_status (key : RTThread → Nat) :
    ∀ (fuel : Nat) (l l' : List RTThread) (t : RTThread),
      heapDequeueAux key fuel l = (some t, l') →
      t.status ≠ RTStatus.tobeRemoved := by
  intro fuel
  induction fuel with
  | zero =>
    intro l l' t h
    simp [heapDequeueAux] at h
  | succ fuel ih =>
    intro l l' t h
    cases l with
    | nil => simp [heapDequeueAux] at h
    | cons x xs =>
      unfold heapDequeueAux at h
      dsimp only at h
      by_cases hx : x.status = RTStatus.tobeRemoved
      · rw [if_pos hx] at h
        exact ih _ _ t h
      · rw [if_neg hx] at h
        have hxt : x = t := by
          have := congrArg Prod.fst h
          simpa using this
        rw [← hxt]
        exact hx

/-- C7, behaviour at the failing input: the runnable queue holds a
single descriptor whose status is `TOBE_REMOVED`.  The dequeue skips it
(removing it from the queue and dequeueing again on the now-empty
queue, hence `none`), and — faithful to the source, where the skip
path's `min->status == REMOVED;` is a comparison whose result is
discarded — no status field is ever set to `REMOVED`: the descriptor is
dropped still carrying `TOBE_REMOVED`. -/
theorem c7_skip_no_mark_eval :
    dequeue_thread QueueType.runnableQueue
        [{ tid := 11, ttype := RTType.periodic, status := RTStatus.tobeRemoved, qType := QueueType.runnableQueue, constraints := { period := 10, slice := 2, work := 0, priority := 0 }, startTime := 0, runTime := 0, deadline := 5, exitTime := 0 }]
      = (none, ([] : List RTThread)) ∧
    ({ tid := 11, ttype := RTType.periodic, status := RTStatus.tobeRemoved, qType := QueueType.runnableQueue, constraints := { period := 10, slice := 2, work := 0, priority := 0 }, startTime := 0, runTime := 0, deadline := 5, exitTime := 0 } : RTThread).status
      = RTStatus.tobeRemoved := by
  constructor
  · decide
  · decide

/-- C8, behaviour at the failing input: the runnable queue holds only
the descriptor with tid 21, and remove-by-identity is called for the
absent descriptor with tid 22 (whose `q_type` names the runnable
queue).  Because the match loop `if (thread = queue->threads[i])` is an
assignment, index 0 always matches: the call removes the root (tid 21)
from the queue and returns it — instead of the NotFound diagnostic NULL
with no state change. -/
theorem c8_remove_eval :
    remove_thread
        [{ tid := 21, ttype := RTType.periodic, status := RTStatus.admitted, qType := QueueType.runnableQueue, constraints := { period := 10, slice := 2, work := 0, priority := 0 }, startTime := 0, runTime := 0, deadline := 40, exitTime := 0 }]
        { tid := 22, ttype := RTType.periodic, status := RTStatus.admitted, qType := QueueType.runnableQueue, constraints := { period := 30, slice := 5, work := 0, priority := 0 }, startTime := 0, runTime := 0, deadline := 70, exitTime := 0 }
      = (some { tid := 21, ttype := RTType.periodic, status := RTStatus.admitted, qType := QueueType.runnableQueue, constraints := { period := 10, slice := 2, work := 0, priority := 0 }, startTime := 0, runTime := 0, deadline := 40, exitTime := 0 },
         ([] : List RTThread)) ∧
    ({ tid := 22, ttype := RTType.periodic, status := RTStatus.admitted, qType := QueueType.runnableQueue, constraints := { period := 30, slice := 5, work := 0, priority := 0 }, startTime := 0, runTime := 0, deadline := 70, exitTime := 0 } : RTThread) ∉
      [{ tid := 21, ttype := RTType.periodic, status := RTStatus.admitted, qType := QueueType.runnableQueue, constraints := { period := 10, slice := 2, work := 0, priority := 0 }, startTime := 0, runTime := 0, deadline := 40, exitTime := 0 }] := by
  constructor
  · decide
  · decide

/-- C2, behaviour at the failing input: a full reschedule at `now = 100`
with an aperiodic current thread (start_time 5, run_time 7, exit_time 3)
and one runnable periodic thread (tid 10, start_time 1).  The claim
requires run_time to become 7 + (100 - 5) = 102, exit_time to become
100, and the chosen thread's start_time to become 100; the code performs
none of these updates — the returned next thread keeps start_time 1 and
the parked current thread keeps run_time 7 and exit_time 3. -/
theorem c2_no_billing_eval :
    ((rtNeedResched
        { runnable := [{ tid := 10, ttype := RTType.periodic, status := RTStatus.admitted, qType := QueueType.runnableQueue, constraints := { period := 40, slice := 5, work := 0, priority := 0 }, startTime := 1, runTime := 0, deadline := 200, exitTime := 2 }],
          pending := [],
          aperiodicQ := [{ tid := 9, ttype := RTType.aperiodic, status := RTStatus.admitted, qType := QueueType.aperiodicQueue, constraints := { period := 0, slice := 0, work := 0, priority := 0 }, startTime := 0, runTime := 0, deadline := 0, exitTime := 0 }],
          schedRunTime := 0, tscStartTime := 0, tscSetTime := 0, tscEndTime := 0 }
        { tid := 5, ttype := RTType.aperiodic, status := RTStatus.running, qType := QueueType.aperiodicQueue, constraints := { period := 0, slice := 0, work := 0, priority := 1 }, startTime := 5, runTime := 7, deadline := 0, exitTime := 3 }
        100).map (fun r => (r.1.tid, r.1.startTime, r.1.runTime, r.1.exitTime))
      = some (10, 1, 0, 2)) ∧
    ((rtNeedResched
        { runnable := [{ tid := 10, ttype := RTType.periodic, status := RTStatus.admitted, qType := QueueType.runnableQueue, constraints := { period := 40, slice := 5, work := 0, priority := 0 }, startTime := 1, runTime := 0, deadline := 200, exitTime := 2 }],
          pending := [],
          aperiodicQ := [{ tid := 9, ttype := RTType.aperiodic, status := RTStatus.admitted, qType := QueueType.aperiodicQueue, constraints := { period := 0, slice := 0, work := 0, priority := 0 }, startTime := 0, runTime := 0, deadline := 0, exitTime := 0 }],
          schedRunTime := 0, tscStartTime := 0, tscSetTime := 0, tscEndTime := 0 }
        { tid := 5, ttype := RTType.aperiodic, status := RTStatus.running, qType := QueueType.aperiodicQueue, constraints := { period := 0, slice := 0, work := 0, priority := 1 }, startTime := 5, runTime := 7, deadline := 0, exitTime := 3 }
        100).map (fun r => r.2.aperiodicQ.map (fun t => (t.tid, t.runTime, t.exitTime, t.startTime)))
      = some [(9, 0, 0, 0), (5, 7, 3, 5)]) := by
  constructor
  · decide
  · decide

/-- Characterization of the release drain: over a clean pending heap it
moves exactly the roots with deadline strictly below `end_time` to
runnable (re-released), leaves the later-deadline threads on pending,
and does not touch the aperiodic queue. -/
theorem drainLoopAux_spec :
    ∀ (fuel : Nat) (s : Sched) (end_time now : Nat),
      s.pending.length ≤ fuel →
      IsHeap deadlineKey s.pending →
      (∀ x ∈ s.pending, x.status ≠ RTStatus.tobeRemoved) →
      s.runnable.length + s.pending.length ≤ MAX_QUEUE →
      List.Perm (drainLoopAux fuel s end_time now).pending
        (s.pending.filter (fun x => decide (¬ x.deadline < end_time))) ∧
      List.Perm (drainLoopAux fuel s end_time now).runnable
        (s.runnable ++
          (s.pending.filter (fun x => decide (x.deadline < end_time))).map
            (fun t => heapTag QueueType.runnableQueue (update_periodic t now))) ∧
      (drainLoopAux fuel s end_time now).aperiodicQ = s.aperiodicQ := by
  intro fuel
  induction fuel with
  | zero =>
    intro s end_time now hlen hheap hclean hcap
    have hnil : s.pending = [] := List.length_eq_zero.1 (by omega)
    have e : drainLoopAux 0 s end_time now = s := rfl
    rw [e, hnil]
    exact ⟨by simp, by simp, rfl⟩
  | succ fuel ih =>
    intro s end_time now hlen hheap hclean hcap
    cases hpend : s.pending with
    | nil =>
      have hstep : drainLoopAux (fuel + 1) s end_time now = s := by
        unfold drainLoopAux
        rw [hpend]
      rw [hstep, hpend]
      exact ⟨by simp, by simp, rfl⟩
    | cons t rest =>
      have ht : t.status ≠ RTStatus.tobeRemoved :=
        hclean t (by rw [hpend]; exact List.mem_cons_self t rest)
      by_cases hd : t.deadline < end_time
      · have hdq2 : dequeue_thread QueueType.pendingQueue (t :: rest)
            = (some t, siftDown deadlineKey ((t :: rest).getLastD dfltThread) (t :: rest).dropLast 0) := by
          rw [dequeue_thread_eq_heap _ _ (Or.inr (Or.inl rfl))]
          exact heapDequeue_cons _ t rest ht
        have hsnd : (heapDequeue deadlineKey (t :: rest)).2
            = siftDown deadlineKey ((t :: rest).getLastD dfltThread) (t :: rest).dropLast 0 := by
          rw [heapDequeue_cons _ t rest ht]
        have hstep : drainLoopAux (fuel + 1) s end_time now
            = drainLoopAux fuel
                { s with pending := siftDown deadlineKey ((t :: rest).getLastD dfltThread) (t :: rest).dropLast 0,
                         runnable := enqueue_thread QueueType.runnableQueue s.runnable (update_periodic t now) }
                end_time now := by
          conv_lhs => unfold drainLoopAux
          rw [hpend]
          dsimp only
          rw [if_pos hd, hdq2]
        have hDperm : List.Perm
            (siftDown deadlineKey ((t :: rest).getLastD dfltThread) (t :: rest).dropLast 0) rest := by
          have h1 := heapDequeue_perm deadlineKey t rest ht
          rw [hsnd] at h1
          exact h1.cons_inv
        have hDheap : IsHeap deadlineKey
            (siftDown deadlineKey ((t :: rest).getLastD dfltThread) (t :: rest).dropLast 0) := by
          have h1 := heapDequeue_isHeap deadlineKey t rest ht (by rw [← hpend]; exact hheap)
          rwa [hsnd] at h1
        have hDclean : ∀ y ∈ siftDown deadlineKey ((t :: rest).getLastD dfltThread) (t :: rest).dropLast 0,
            y.status ≠ RTStatus.tobeRemoved := by
          intro y hy
          refine hclean y ?_
          rw [hpend]
          exact List.mem_cons_of_mem t (hDperm.mem_iff.1 hy)
        have hrunlen : s.runnable.length ≠ MAX_QUEUE := by
          rw [hpend] at hcap
          simp only [List.length_cons] at hcap
          omega
        have hR : List.Perm
            (enqueue_thread QueueType.runnableQueue s.runnable (update_periodic t now))
            (heapTag QueueType.runnableQueue (update_periodic t now) :: s.runnable) := by
          rw [enqueue_thread_eq_heap _ _ _ (Or.inl rfl), if_neg hrunlen]
          exact heapEnq_perm ..
        obtain ⟨ih1, ih2, ih3⟩ := ih
          { s with pending := siftDown deadlineKey ((t :: rest).getLastD dfltThread) (t :: rest).dropLast 0,
                   runnable := enqueue_thread QueueType.runnableQueue s.runnable (update_periodic t now) }
          end_time now
          (by
            simp only [hDperm.length_eq]
            rw [hpend] at hlen
            simp only [List.length_cons] at hlen
            omega)
          hDheap hDclean
          (by
            simp only [hDperm.length_eq, hR.length_eq, List.length_cons]
            rw [hpend] at hcap
            simp only [List.length_cons] at hcap
            omega)
        rw [hstep]
        refine ⟨?_, ?_, ih3⟩
        · refine ih1.trans ?_
          rw [List.filter_cons_of_neg (by simp [hd])]
          exact hDperm.filter _
        · refine ih2.trans ?_
          rw [List.filter_cons_of_pos (by simp [hd])]
          simp only [List.map_cons]
          refine (List.Perm.append hR ((hDperm.filter _).map _)).trans ?_
          simp only [List.cons_append]
          exact (List.perm_middle).symm
      · have hstep : drainLoopAux (fuel + 1) s end_time now = s := by
          unfold drainLoopAux
          rw [hpend]
          dsimp only
          rw [if_neg hd]
        have hmin : ∀ x ∈ t :: rest, ¬ x.deadline < end_time := by
          intro x hx
          have h1 := heapRoot_min deadlineKey t rest (by rw [← hpend]; exact hheap) x hx
          unfold deadlineKey at h1
          omega
        rw [hstep]
        refine ⟨?_, ?_, rfl⟩
        · rw [List.filter_eq_self.2 (fun a ha => by simp [hmin a ha]), hpend]
        · rw [List.filter_eq_nil_iff.2 (fun a ha => by simp [hmin a ha])]
          simp

/-- C4, counterexample to the claim as stated: at `now = 100` the
pending root (tid 30) has deadline 100, i.e. deadline ≤ now, yet a full
reschedule leaves it on pending and enqueues nothing onto runnable —
the drain condition in the code is the strict
`pending->threads[0]->deadline < end_time` (rt_scheduler.c line 997),
not the claimed `deadline ≤ now`. -/
theorem c4_original_false :
    ((rtNeedResched
        { runnable := [],
          pending := [{ tid := 30, ttype := RTType.periodic, status := RTStatus.admitted, qType := QueueType.pendingQueue, constraints := { period := 50, slice := 5, work := 0, priority := 0 }, startTime := 0, runTime := 0, deadline := 100, exitTime := 0 }],
          aperiodicQ := [{ tid := 9, ttype := RTType.aperiodic, status := RTStatus.admitted, qType := QueueType.aperiodicQueue, constraints := { period := 0, slice := 0, work := 0, priority := 0 }, startTime := 0, runTime := 0, deadline := 0, exitTime := 0 }],
          schedRunTime := 0, tscStartTime := 0, tscSetTime := 0, tscEndTime := 0 }
        { tid := 31, ttype := RTType.sporadic, status := RTStatus.running, qType := QueueType.runnableQueue, constraints := { period := 0, slice := 0, work := 50, priority := 0 }, startTime := 0, runTime := 10, deadline := 300, exitTime := 0 }
        100).map (fun r => r.2.pending.map (fun t => (t.tid, t.deadline)))
      = some [(30, 100)]) ∧
    ((rtNeedResched
        { runnable := [],
          pending := [{ tid := 30, ttype := RTType.periodic, status := RTStatus.admitted, qType := QueueType.pendingQueue, constraints := { period := 50, slice := 5, work := 0, priority := 0 }, startTime := 0, runTime := 0, deadline := 100, exitTime := 0 }],
          aperiodicQ := [{ tid := 9, ttype := RTType.aperiodic, status := RTStatus.admitted, qType := QueueType.aperiodicQueue, constraints := { period := 0, slice := 0, work := 0, priority := 0 }, startTime := 0, runTime := 0, deadline := 0, exitTime := 0 }],
          schedRunTime := 0, tscStartTime := 0, tscSetTime := 0, tscEndTime := 0 }
        { tid := 31, ttype := RTType.sporadic, status := RTStatus.running, qType := QueueType.runnableQueue, constraints := { period := 0, slice := 0, work := 50, priority := 0 }, startTime := 0, runTime := 10, deadline := 300, exitTime := 0 }
        100).map (fun r => r.2.runnable)
      = some []) ∧
    (100 : Nat) ≤ 100 := by
  refine ⟨?_, ?_, ?_⟩
  · decide
  · decide
  · decide

/-- C4 (amended: the drain condition is the strict `deadline <
end_time`, so a root whose deadline equals the sampled time stays on
pending): at each reschedule the release drain dequeues from pending
exactly the threads with deadline strictly below the sampled time,
applies periodic re-release to each and enqueues them onto runnable;
every thread with deadline at least the sampled time remains on
pending, so after the drain every pending thread — in particular the
root — has deadline ≥ the sampled time, and the aperiodic queue is
untouched. -/
theorem c4_drain_strict (s : Sched) (end_time now : Nat)
    (hheap : IsHeap deadlineKey s.pending)
    (hclean : ∀ x ∈ s.pending, x.status ≠ RTStatus.tobeRemoved)
    (hcap : s.runnable.length + s.pending.length ≤ MAX_QUEUE) :
    List.Perm (drainLoop s end_time now).pending
      (s.pending.filter (fun x => decide (¬ x.deadline < end_time))) ∧
    List.Perm (drainLoop s end_time now).runnable
      (s.runnable ++
        (s.pending.filter (fun x => decide (x.deadline < end_time))).map
          (fun t => heapTag QueueType.runnableQueue (update_periodic t now))) ∧
    (∀ x ∈ (drainLoop s end_time now).pending, end_time ≤ x.deadline) ∧
    (drainLoop s end_time now).aperiodicQ = s.aperiodicQ := by
  obtain ⟨h1, h2, h3⟩ := drainLoopAux_spec s.pending.length s end_time now
    (le_refl _) hheap hclean hcap
  refine ⟨h1, h2, ?_, h3⟩
  intro x hx
  have hmem := h1.mem_iff.1 hx
  have := (List.mem_filter.1 hmem).2
  simp at this
  omega

/-- Witness for C4 at a concrete state: pending holds deadlines 50 and
200, the sampled time is 100; the theorem applied there. -/
theorem c4_drain_strict_inst :
    List.Perm
      (drainLoop
        { runnable := [],
          pending := [{ tid := 41, ttype := RTType.periodic, status := RTStatus.admitted, qType := QueueType.pendingQueue, constraints := { period := 60, slice := 5, work := 0, priority := 0 }, startTime := 0, runTime := 4, deadline := 50, exitTime := 0 },
                      { tid := 42, ttype := RTType.periodic, status := RTStatus.admitted, qType := QueueType.pendingQueue, constraints := { period := 300, slice := 5, work := 0, priority := 0 }, startTime := 0, runTime := 0, deadline := 200, exitTime := 0 }],
          aperiodicQ := [], schedRunTime := 0, tscStartTime := 0, tscSetTime := 0, tscEndTime := 0 }
        100 100).pending
      ([{ tid := 41, ttype := RTType.periodic, status := RTStatus.admitted, qType := QueueType.pendingQueue, constraints := { period := 60, slice := 5, work := 0, priority := 0 }, startTime := 0, runTime := 4, deadline := 50, exitTime := 0 },
         { tid := 42, ttype := RTType.periodic, status := RTStatus.admitted, qType := QueueType.pendingQueue, constraints := { period := 300, slice := 5, work := 0, priority := 0 }, startTime := 0, runTime := 0, deadline := 200, exitTime := 0 }].filter
        (fun x => decide (¬ x.deadline < 100))) ∧
    List.Perm
      (drainLoop
        { runnable := [],
          pending := [{ tid := 41, ttype := RTType.periodic, status := RTStatus.admitted, qType := QueueType.pendingQueue, constraints := { period := 60, slice := 5, work := 0, priority := 0 }, startTime := 0, runTime := 4, deadline := 50, exitTime := 0 },
                      { tid := 42, ttype := RTType.periodic, status := RTStatus.admitted, qType := QueueType.pendingQueue, constraints := { period := 300, slice := 5, work := 0, priority := 0 }, startTime := 0, runTime := 0, deadline := 200, exitTime := 0 }],
          aperiodicQ := [], schedRunTime := 0, tscStartTime := 0, tscSetTime := 0, tscEndTime := 0 }
        100 100).runnable
      ([] ++
        ([{ tid := 41, ttype := RTType.periodic, status := RTStatus.admitted, qType := QueueType.pendingQueue, constraints := { period := 60, slice := 5, work := 0, priority := 0 }, startTime := 0, runTime := 4, deadline := 50, exitTime := 0 },
           { tid := 42, ttype := RTType.periodic, status := RTStatus.admitted, qType := QueueType.pendingQueue, constraints := { period := 300, slice := 5, work := 0, priority := 0 }, startTime := 0, runTime := 0, deadline := 200, exitTime := 0 }].filter
          (fun x => decide (x.deadline < 100))).map
          (fun t => heapTag QueueType.runnableQueue (update_periodic t 100))) ∧
    (∀ x ∈ (drainLoop
        { runnable := [],
          pending := [{ tid := 41, ttype := RTType.periodic, status := RTStatus.admitted, qType := QueueType.pendingQueue, constraints := { period := 60, slice := 5, work := 0, priority := 0 }, startTime := 0, runTime := 4, deadline := 50, exitTime := 0 },
                      { tid := 42, ttype := RTType.periodic, status := RTStatus.admitted, qType := QueueType.pendingQueue, constraints := { period := 300, slice := 5, work := 0, priority := 0 }, startTime := 0, runTime := 0, deadline := 200, exitTime := 0 }],
          aperiodicQ := [], schedRunTime := 0, tscStartTime := 0, tscSetTime := 0, tscEndTime := 0 }
        100 100).pending, (100 : Nat) ≤ x.deadline) ∧
    (drainLoop
        { runnable := [],
          pending := [{ tid := 41, ttype := RTType.periodic, status := RTStatus.admitted, qType := QueueType.pendingQueue, constraints := { period := 60, slice := 5, work := 0, priority := 0 }, startTime := 0, runTime := 4, deadline := 50, exitTime := 0 },
                      { tid := 42, ttype := RTType.periodic, status := RTStatus.admitted, qType := QueueType.pendingQueue, constraints := { period := 300, slice := 5, work := 0, priority := 0 }, startTime := 0, runTime := 0, deadline := 200, exitTime := 0 }],
          aperiodicQ := [], schedRunTime := 0, tscStartTime := 0, tscSetTime := 0, tscEndTime := 0 }
        100 100).aperiodicQ = [] :=
  c4_drain_strict _ 100 100 (by decide) (by decide) (by decide)

/-- Reduction of the selection switch for a periodic current thread. -/
theorem selectNext_periodic (s : Sched) (cur : RTThread) (now end_time : Nat)
    (htype : cur.ttype = RTType.periodic) :
    selectNext s cur now end_time =
      if cur.constraints.slice ≤ cur.runTime then
        if check_deadlines cur then
          pickNext { s with runnable := enqueue_thread QueueType.runnableQueue s.runnable (update_periodic cur now) } now end_time
        else
          pickNext { s with pending := enqueue_thread QueueType.pendingQueue s.pending cur } now end_time
      else some (preemptCheck s cur now end_time) := by
  unfold selectNext
  rw [htype]

/-- Reduction of the selection switch for a sporadic current thread. -/
theorem selectNext_sporadic (s : Sched) (cur : RTThread) (now end_time : Nat)
    (htype : cur.ttype = RTType.sporadic) :
    selectNext s cur now end_time =
      if cur.constraints.work ≤ cur.runTime then
        pickNext s now end_time
      else some (preemptCheck s cur now end_time) := by
  unfold selectNext
  rw [htype]

/-- Behaviour of the shared selection tail on a non-empty runnable queue
whose root is not marked for removal. -/
theorem pickNext_cons (s : Sched) (now end_time : Nat) (x : RTThread)
    (xs : List RTThread) (hr : s.runnable = x :: xs)
    (hx : x.status ≠ RTStatus.tobeRemoved) :
    pickNext s now end_time
      = some (x, set_timer_st
          { s with runnable := siftDown deadlineKey ((x :: xs).getLastD dfltThread) (x :: xs).dropLast 0 }
          x end_time 0 now) := by
  have hdq : dequeue_thread QueueType.runnableQueue (x :: xs)
      = (some x, siftDown deadlineKey ((x :: xs).getLastD dfltThread) (x :: xs).dropLast 0) := by
    rw [dequeue_thread_eq_heap _ _ (Or.inl rfl)]
    exact heapDequeue_cons _ x xs hx
  unfold pickNext
  rw [hr, hdq]

/-- The selection tail never touches the pending queue. -/
theorem pickNext_pending_frame (s : Sched) (now end_time : Nat)
    (n : RTThread) (s' : Sched) (h : pickNext s now end_time = some (n, s')) :
    s'.pending = s.pending := by
  unfold pickNext at h
  cases hr : s.runnable with
  | nil =>
    rw [hr] at h
    dsimp only at h
    rcases hdq : dequeue_thread QueueType.aperiodicQueue s.aperiodicQ with ⟨o, a'⟩
    rw [hdq] at h
    cases o with
    | none => simp at h
    | some m =>
      dsimp only at h
      exact (congrArg (fun p => p.2.pending) (Option.some.inj h)).symm
  | cons y ys =>
    rw [hr] at h
    dsimp only at h
    rcases hdq : dequeue_thread QueueType.runnableQueue (y :: ys) with ⟨o, r'⟩
    rw [hdq] at h
    cases o with
    | some m =>
      dsimp only at h
      exact (congrArg (fun p => p.2.pending) (Option.some.inj h)).symm
    | none =>
      dsimp only at h
      rcases hdq2 : dequeue_thread QueueType.aperiodicQueue s.aperiodicQ with ⟨o2, a'⟩
      rw [hdq2] at h
      cases o2 with
      | none => simp at h
      | some m =>
        dsimp only at h
        exact (congrArg (fun p => p.2.pending) (Option.some.inj h)).symm

/-- Re-release does not change the status field. -/
theorem update_periodic_status (t : RTThread) (now : Nat) :
    (update_periodic t now).status = t.status := by
  unfold update_periodic
  split
  · rfl
  · rfl

/-- C1, counterexample to the claim as stated: at `now = 60` the
periodic current thread (tid 32) has consumed its slice (run_time 10 ≥
slice 10) and met its deadline (exit_time 50 ≤ deadline 100); the claim
says it is re-released (deadline 60 + 30, run_time 0) and enqueued onto
runnable, but the code parks it on pending with its deadline left at
100 and runnable stays empty — `check_deadlines` returns 1 on a miss,
and the code re-releases on a miss and parks on a met deadline. -/
theorem c1_original_false :
    ((rtNeedResched
        { runnable := [],
          pending := [],
          aperiodicQ := [{ tid := 9, ttype := RTType.aperiodic, status := RTStatus.admitted, qType := QueueType.aperiodicQueue, constraints := { period := 0, slice := 0, work := 0, priority := 0 }, startTime := 0, runTime := 0, deadline := 0, exitTime := 0 }],
          schedRunTime := 0, tscStartTime := 0, tscSetTime := 0, tscEndTime := 0 }
        { tid := 32, ttype := RTType.periodic, status := RTStatus.running, qType := QueueType.runnableQueue, constraints := { period := 30, slice := 10, work := 0, priority := 0 }, startTime := 0, runTime := 10, deadline := 100, exitTime := 50 }
        60).map (fun r => r.2.pending.map (fun t => (t.tid, t.deadline, t.runTime)))
      = some [(32, 100, 10)]) ∧
    ((rtNeedResched
        { runnable := [],
          pending := [],
          aperiodicQ := [{ tid := 9, ttype := RTType.aperiodic, status := RTStatus.admitted, qType := QueueType.aperiodicQueue, constraints := { period := 0, slice := 0, work := 0, priority := 0 }, startTime := 0, runTime := 0, deadline := 0, exitTime := 0 }],
          schedRunTime := 0, tscStartTime := 0, tscSetTime := 0, tscEndTime := 0 }
        { tid := 32, ttype := RTType.periodic, status := RTStatus.running, qType := QueueType.runnableQueue, constraints := { period := 30, slice := 10, work := 0, priority := 0 }, startTime := 0, runTime := 10, deadline := 100, exitTime := 50 }
        60).map (fun r => r.2.runnable)
      = some []) ∧
    (50 : Nat) ≤ 100 ∧ (10 : Nat) ≤ 10 := by
  refine ⟨?_, ?_, ?_, ?_⟩
  · decide
  · decide
  · decide
  · decide

/-- C1 (amended: the two branches are the reverse of the claim): for a
periodic current thread whose run_time has reached its slice, the
dispatcher evaluates `check_deadlines` and, if the deadline was missed
(`exit_time > deadline`), it re-releases the thread (deadline becomes
`now + period`, run_time becomes 0) and enqueues it onto runnable —
after which the selection may immediately dequeue it, so the re-released
thread and the returned next thread together form the old runnable
contents plus the re-released thread, with pending untouched; if the
deadline was met (`exit_time ≤ deadline`), the thread is enqueued onto
pending with its deadline value left unchanged. -/
theorem c1_periodic_slice_branches (s : Sched) (cur : RTThread) (now end_time : Nat)
    (htype : cur.ttype = RTType.periodic)
    (hslice : cur.constraints.slice ≤ cur.runTime)
    (hclean : ∀ x ∈ s.runnable, x.status ≠ RTStatus.tobeRemoved)
    (hcur : cur.status ≠ RTStatus.tobeRemoved)
    (hrlen : s.runnable.length < MAX_QUEUE)
    (hplen : s.pending.length < MAX_QUEUE) :
    (cur.deadline < cur.exitTime →
      ∃ nxt s', selectNext s cur now end_time = some (nxt, s') ∧
        List.Perm (nxt :: s'.runnable)
          (heapTag QueueType.runnableQueue (update_periodic cur now) :: s.runnable) ∧
        s'.pending = s.pending) ∧
    (cur.exitTime ≤ cur.deadline →
      ∀ nxt s', selectNext s cur now end_time = some (nxt, s') →
        List.Perm s'.pending (heapTag QueueType.pendingQueue cur :: s.pending)) := by
  constructor
  · intro hmiss
    have hcd : check_deadlines cur = true := by
      unfold check_deadlines
      exact decide_eq_true hmiss
    rw [selectNext_periodic s cur now end_time htype, if_pos hslice, if_pos hcd]
    have hEnq : enqueue_thread QueueType.runnableQueue s.runnable (update_periodic cur now)
        = heapEnq deadlineKey s.runnable
            (heapTag QueueType.runnableQueue (update_periodic cur now)) := by
      rw [enqueue_thread_eq_heap _ _ _ (Or.inl rfl), if_neg (by omega)]
      rfl
    have hRperm : List.Perm
        (enqueue_thread QueueType.runnableQueue s.runnable (update_periodic cur now))
        (heapTag QueueType.runnableQueue (update_periodic cur now) :: s.runnable) := by
      rw [hEnq]
      exact heapEnq_perm ..
    have hRlen : (enqueue_thread QueueType.runnableQueue s.runnable
        (update_periodic cur now)).length = s.runnable.length + 1 := by
      rw [hRperm.length_eq]
      simp
    obtain ⟨y, ys, hco⟩ : ∃ y ys,
        enqueue_thread QueueType.runnableQueue s.runnable (update_periodic cur now)
          = y :: ys := by
      cases hR2 : enqueue_thread QueueType.runnableQueue s.runnable (update_periodic cur now) with
      | nil => rw [hR2] at hRlen; simp at hRlen
      | cons a b => exact ⟨a, b, rfl⟩
    have hyclean : y.status ≠ RTStatus.tobeRemoved := by
      have hymem : y ∈ enqueue_thread QueueType.runnableQueue s.runnable
          (update_periodic cur now) := by
        rw [hco]
        exact List.mem_cons_self ..
      rcases List.mem_cons.1 (hRperm.mem_iff.1 hymem) with h1 | h1
      · rw [h1]
        show (update_periodic cur now).status ≠ _
        rw [update_periodic_status]
        exact hcur
      · exact hclean y h1
    have hpick := pickNext_cons { s with runnable := enqueue_thread QueueType.runnableQueue s.runnable (update_periodic cur now) } now end_time y ys hco hyclean
    refine ⟨y, _, hpick, ?_, rfl⟩
    have hDperm : List.Perm
        (y :: siftDown deadlineKey ((y :: ys).getLastD dfltThread) (y :: ys).dropLast 0)
        (y :: ys) := by
      have h1 := heapDequeue_perm deadlineKey y ys hyclean
      rwa [heapDequeue_cons _ y ys hyclean] at h1
    refine hDperm.trans ?_
    rw [← hco]
    exact hRperm
  · intro hmet nxt s' hsel
    have hcd : check_deadlines cur = false := by
      unfold check_deadlines
      exact decide_eq_false (by omega)
    rw [selectNext_periodic s cur now end_time htype, if_pos hslice,
      if_neg (by simp [hcd])] at hsel
    have hframe := pickNext_pending_frame _ now end_time nxt s' hsel
    rw [hframe]
    show List.Perm (enqueue_thread QueueType.pendingQueue s.pending cur) _
    rw [enqueue_thread_eq_heap _ _ _ (Or.inr (Or.inl rfl)), if_neg (by omega)]
    exact heapEnq_perm ..

/-- Witness for C1: concrete met-deadline instance of the amended
branch theorem. -/
theorem c1_periodic_slice_branches_inst :
    (50 : Nat) ≤ 100 ∧
    (∀ nxt s',
      selectNext
        { runnable := [], pending := [], aperiodicQ := [], schedRunTime := 0, tscStartTime := 0, tscSetTime := 0, tscEndTime := 0 }
        { tid := 33, ttype := RTType.periodic, status := RTStatus.running, qType := QueueType.runnableQueue, constraints := { period := 30, slice := 10, work := 0, priority := 0 }, startTime := 0, runTime := 10, deadline := 100, exitTime := 50 }
        60 110 = some (nxt, s') →
      List.Perm s'.pending
        (heapTag QueueType.pendingQueue
          { tid := 33, ttype := RTType.periodic, status := RTStatus.running, qType := QueueType.runnableQueue, constraints := { period := 30, slice := 10, work := 0, priority := 0 }, startTime := 0, runTime := 10, deadline := 100, exitTime := 50 }
          :: ([] : List RTThread))) :=
  ⟨by decide,
   (c1_periodic_slice_branches
      { runnable := [], pending := [], aperiodicQ := [], schedRunTime := 0, tscStartTime := 0, tscSetTime := 0, tscEndTime := 0 }
      { tid := 33, ttype := RTType.periodic, status := RTStatus.running, qType := QueueType.runnableQueue, constraints := { period := 30, slice := 10, work := 0, priority := 0 }, startTime := 0, runTime := 10, deadline := 100, exitTime := 50 }
      60 110 (by decide) (by decide) (by decide) (by decide) (by decide)
      (by decide)).2 (by decide)⟩

/-- C3: for a periodic or sporadic current thread with remaining budget
(`run_time < slice`, resp. `run_time < work`), the dispatcher runs the
preemption check: with runnable non-empty and its root's deadline
strictly below the current thread's, it dequeues that root, enqueues the
current thread back onto runnable (so the root plus the new runnable
contents permute the old runnable plus the re-tagged current thread, and
pending and aperiodic are untouched), and returns the root; with
runnable empty, or its root's deadline not strictly smaller, it keeps
the current thread and only re-arms the timer. -/
theorem c3_preemption (s : Sched) (cur : RTThread) (now end_time : Nat)
    (hbudget : (cur.ttype = RTType.periodic ∧ cur.runTime < cur.constraints.slice) ∨
      (cur.ttype = RTType.sporadic ∧ cur.runTime < cur.constraints.work))
    (hclean : ∀ x ∈ s.runnable, x.status ≠ RTStatus.tobeRemoved)
    (hlen : s.runnable.length ≤ MAX_QUEUE) :
    (∀ t0 rest, s.runnable = t0 :: rest → t0.deadline < cur.deadline →
      ∃ s', selectNext s cur now end_time = some (t0, s') ∧
        List.Perm (t0 :: s'.runnable)
          (heapTag QueueType.runnableQueue cur :: s.runnable) ∧
        s'.pending = s.pending ∧ s'.aperiodicQ = s.aperiodicQ) ∧
    (s.runnable = [] →
      selectNext s cur now end_time = some (cur, set_timer_st s cur end_time 0 now)) ∧
    (∀ t0 rest, s.runnable = t0 :: rest → cur.deadline ≤ t0.deadline →
      selectNext s cur now end_time = some (cur, set_timer_st s cur end_time 0 now)) := by
  have hsel : selectNext s cur now end_time = some (preemptCheck s cur now end_time) := by
    rcases hbudget with ⟨ht, hb⟩ | ⟨ht, hb⟩
    · rw [selectNext_periodic s cur now end_time ht, if_neg (by omega)]
    · rw [selectNext_sporadic s cur now end_time ht, if_neg (by omega)]
  refine ⟨?_, ?_, ?_⟩
  · intro t0 rest hr hdl
    have ht0 : t0.status ≠ RTStatus.tobeRemoved := by
      refine hclean t0 ?_
      rw [hr]
      exact List.mem_cons_self ..
    have hdq : dequeue_thread QueueType.runnableQueue (t0 :: rest)
        = (some t0, siftDown deadlineKey ((t0 :: rest).getLastD dfltThread) (t0 :: rest).dropLast 0) := by
      rw [dequeue_thread_eq_heap _ _ (Or.inl rfl)]
      exact heapDequeue_cons _ t0 rest ht0
    have hpc : preemptCheck s cur now end_time
        = (t0, set_timer_st { s with runnable := enqueue_thread QueueType.runnableQueue (siftDown deadlineKey ((t0 :: rest).getLastD dfltThread) (t0 :: rest).dropLast 0) cur } t0 end_time 0 now) := by
      unfold preemptCheck
      rw [hr]
      dsimp only
      rw [if_pos hdl, hdq]
    rw [hsel, hpc]
    refine ⟨_, rfl, ?_, rfl, rfl⟩
    have hdlen : (siftDown deadlineKey ((t0 :: rest).getLastD dfltThread) (t0 :: rest).dropLast 0).length = rest.length := by
      rw [siftDown_len]
      simp
    have hlt2 : (siftDown deadlineKey ((t0 :: rest).getLastD dfltThread) (t0 :: rest).dropLast 0).length ≠ MAX_QUEUE := by
      rw [hdlen]
      have h3 := hlen
      rw [hr] at h3
      simp only [List.length_cons] at h3
      omega
    show List.Perm
      (t0 :: enqueue_thread QueueType.runnableQueue (siftDown deadlineKey ((t0 :: rest).getLastD dfltThread) (t0 :: rest).dropLast 0) cur)
      (heapTag QueueType.runnableQueue cur :: s.runnable)
    rw [enqueue_thread_eq_heap _ _ _ (Or.inl rfl), if_neg hlt2]
    have h1 : List.Perm
        (heapEnq (heapKeyOf QueueType.runnableQueue) (siftDown deadlineKey ((t0 :: rest).getLastD dfltThread) (t0 :: rest).dropLast 0) (heapTag QueueType.runnableQueue cur))
        (heapTag QueueType.runnableQueue cur :: siftDown deadlineKey ((t0 :: rest).getLastD dfltThread) (t0 :: rest).dropLast 0) :=
      heapEnq_perm ..
    have h2 : List.Perm
        (t0 :: siftDown deadlineKey ((t0 :: rest).getLastD dfltThread) (t0 :: rest).dropLast 0)
        (t0 :: rest) := by
      have h4 := heapDequeue_perm deadlineKey t0 rest ht0
      rwa [heapDequeue_cons _ t0 rest ht0] at h4
    refine (h1.cons t0).trans ?_
    refine (List.Perm.swap _ _ _).trans ?_
    rw [hr]
    exact h2.cons _
  · intro hr
    rw [hsel]
    have hpc : preemptCheck s cur now end_time
        = (cur, set_timer_st s cur end_time 0 now) := by
      unfold preemptCheck
      rw [hr]
    rw [hpc]
  · intro t0 rest hr hge
    rw [hsel]
    have hpc : preemptCheck s cur now end_time
        = (cur, set_timer_st s cur end_time 0 now) := by
      unfold preemptCheck
      rw [hr]
      dsimp only
      rw [if_neg (by omega)]
    rw [hpc]

/-- Witness for C3: concrete preemption instance — the runnable root
(deadline 30) preempts the periodic current thread (deadline 100,
run_time 3 below slice 10). -/
theorem c3_preemption_inst :
    ∃ s',
      selectNext
        { runnable := [{ tid := 51, ttype := RTType.periodic, status := RTStatus.admitted, qType := QueueType.runnableQueue, constraints := { period := 20, slice := 5, work := 0, priority := 0 }, startTime := 0, runTime := 0, deadline := 30, exitTime := 0 }], pending := [], aperiodicQ := [], schedRunTime := 0, tscStartTime := 0, tscSetTime := 0, tscEndTime := 0 }
        { tid := 50, ttype := RTType.periodic, status := RTStatus.running, qType := QueueType.runnableQueue, constraints := { period := 40, slice := 10, work := 0, priority := 0 }, startTime := 0, runTime := 3, deadline := 100, exitTime := 0 }
        60 110
      = some ({ tid := 51, ttype := RTType.periodic, status := RTStatus.admitted, qType := QueueType.runnableQueue, constraints := { period := 20, slice := 5, work := 0, priority := 0 }, startTime := 0, runTime := 0, deadline := 30, exitTime := 0 }, s') ∧
      List.Perm
        ({ tid := 51, ttype := RTType.periodic, status := RTStatus.admitted, qType := QueueType.runnableQueue, constraints := { period := 20, slice := 5, work := 0, priority := 0 }, startTime := 0, runTime := 0, deadline := 30, exitTime := 0 } :: s'.runnable)
        (heapTag QueueType.runnableQueue
            { tid := 50, ttype := RTType.periodic, status := RTStatus.running, qType := QueueType.runnableQueue, constraints := { period := 40, slice := 10, work := 0, priority := 0 }, startTime := 0, runTime := 3, deadline := 100, exitTime := 0 }
          :: [{ tid := 51, ttype := RTType.periodic, status := RTStatus.admitted, qType := QueueType.runnableQueue, constraints := { period := 20, slice := 5, work := 0, priority := 0 }, startTime := 0, runTime := 0, deadline := 30, exitTime := 0 }]) ∧
      s'.pending = ([] : List RTThread) ∧ s'.aperiodicQ = ([] : List RTThread) :=
  (c3_preemption
      { runnable := [{ tid := 51, ttype := RTType.periodic, status := RTStatus.admitted, qType := QueueType.runnableQueue, constraints := { period := 20, slice := 5, work := 0, priority := 0 }, startTime := 0, runTime := 0, deadline := 30, exitTime := 0 }], pending := [], aperiodicQ := [], schedRunTime := 0, tscStartTime := 0, tscSetTime := 0, tscEndTime := 0 }
      { tid := 50, ttype := RTType.periodic, status := RTStatus.running, qType := QueueType.runnableQueue, constraints := { period := 40, slice := 10, work := 0, priority := 0 }, startTime := 0, runTime := 3, deadline := 100, exitTime := 0 }
      60 110 (Or.inl ⟨by decide, by decide⟩) (by decide) (by decide)).1
    { tid := 51, ttype := RTType.periodic, status := RTStatus.admitted, qType := QueueType.runnableQueue, constraints := { period := 20, slice := 5, work := 0, priority := 0 }, startTime := 0, runTime := 0, deadline := 30, exitTime := 0 }
    [] rfl (by decide)
